import Mathlib

/-!
Verification of the OLT manager's sync-reconciliation jobs, vendor output
parsers, SNMP walk correlators and interactive session loops, as a shallow
embedding of the Python sources (tasks.py, vendors/hioso/telnet_service.py,
vendors/hioso/snmp_service.py, vendors/hsgq/snmp_service.py,
vendors/hsgq/epon_snmp_service.py, vendors/hsgq/epon_ssh_service.py).
-/

set_option maxHeartbeats 1000000

namespace OltManager

/-! ## Record store model (database/models.py class Onu, tasks.py sync loops) -/

/-- A JSON detail map as stored in the `details` / `details_snmp` columns.
    Modelled as an association list of field name to rendered value. -/
abbrev Details := List (String × String)

/-- A row of the `onus` table (database/models.py, class Onu), restricted to
    the columns the sync jobs read or write. `lastSeen` abstracts the wall
    clock timestamp as a Nat. -/
structure Onu where
  oltId : Nat
  identifier : String
  ponInterface : String
  vendorName : String
  details : Details
  detailsSnmp : Option Details
  lastSeen : Nat
deriving Repr, DecidableEq

/-- One canonical ONU record as returned by an interactive (Telnet/SSH)
    adapter: the fields tasks.py reads from each `onu_item`. -/
structure FetchedOnu where
  identifier : String
  ponInterface : String
  vendorName : String
  details : Details
deriving Repr, DecidableEq

/-- One ONU record as returned by an SNMP adapter; run_snmp_sync reads only
    `identifier` and `details` of each item. -/
structure SnmpOnu where
  identifier : String
  details : Details
deriving Repr, DecidableEq

/-- The `onus` table contents for the rows the job can see. -/
abbrev Store := List Onu

/-- The filter of `db.query(models.Onu).filter(models.Onu.identifier ==
    identifier, models.Onu.olt_id == olt.id)` applied to one row. -/
def onuMatches (oltId : Nat) (ident : String) (r : Onu) : Bool :=
  r.identifier == ident && r.oltId == oltId

/-- `.first()` row update of the interactive sync loop: the first matching
    row gets `details` overwritten and `last_seen` refreshed (tasks.py,
    run_ssh_telnet_sync). -/
def updateOnuFirst (oltId : Nat) (ident : String) (d : Details) (t : Nat) :
    Store → Store
  | [] => []
  | r :: rs =>
    if onuMatches oltId ident r then { r with details := d, lastSeen := t } :: rs
    else r :: updateOnuFirst oltId ident d t rs

/-- The new row built by `models.Onu(olt_id=..., identifier=...,
    pon_interface=..., vendor_name=..., details=..., last_seen=...)`;
    `details_snmp` is left NULL. -/
def newOnuRow (oltId t : Nat) (it : FetchedOnu) : Onu :=
  { oltId := oltId, identifier := it.identifier, ponInterface := it.ponInterface,
    vendorName := it.vendorName, details := it.details, detailsSnmp := none,
    lastSeen := t }

/-- One iteration of the run_ssh_telnet_sync loop over `onus_from_olt`:
    update the first matching row if one exists, otherwise add a new row. -/
def interactiveStep (oltId t : Nat) (s : Store) (it : FetchedOnu) : Store :=
  if s.any (onuMatches oltId it.identifier) then
    updateOnuFirst oltId it.identifier it.details t s
  else s ++ [newOnuRow oltId t it]

/-- The whole run_ssh_telnet_sync persistence loop over the fetched list. -/
def run_ssh_telnet_store (oltId t : Nat) (items : List FetchedOnu) (s : Store) :
    Store :=
  items.foldl (interactiveStep oltId t) s

/-- The run_ssh_telnet_sync loop together with its `synced_count`
    accumulator (incremented on both branches). -/
def run_ssh_telnet_pair (oltId t : Nat) (items : List FetchedOnu)
    (p : Store × Nat) : Store × Nat :=
  items.foldl (fun p it => (interactiveStep oltId t p.1 it, p.2 + 1)) p

/-- `.first()` row update of the SNMP sync loop: the first matching row gets
    `details_snmp` overwritten and `last_seen` refreshed (tasks.py,
    run_snmp_sync). -/
def updateSnmpFirst (oltId : Nat) (ident : String) (d : Details) (t : Nat) :
    Store → Store
  | [] => []
  | r :: rs =>
    if onuMatches oltId ident r then
      { r with detailsSnmp := some d, lastSeen := t } :: rs
    else r :: updateSnmpFirst oltId ident d t rs

/-- One iteration of the run_snmp_sync loop: update the first matching row
    if one exists, otherwise skip (log a warning and insert nothing). -/
def snmpStep (oltId t : Nat) (s : Store) (it : SnmpOnu) : Store :=
  if s.any (onuMatches oltId it.identifier) then
    updateSnmpFirst oltId it.identifier it.details t s
  else s

/-- The whole run_snmp_sync persistence loop over `onus_from_snmp`. -/
def run_snmp_store (oltId t : Nat) (items : List SnmpOnu) (s : Store) : Store :=
  items.foldl (snmpStep oltId t) s

/-- The run_snmp_sync loop together with its `updated_count` accumulator
    (incremented only when a matching row was found). -/
def run_snmp_pair (oltId t : Nat) (items : List SnmpOnu) (p : Store × Nat) :
    Store × Nat :=
  items.foldl
    (fun p it =>
      if p.1.any (onuMatches oltId it.identifier) then
        (updateSnmpFirst oltId it.identifier it.details t p.1, p.2 + 1)
      else (p.1, p.2)) p

/-- Projection of a row that forgets the timestamp ("fields, timestamp
    excepted"). -/
def projNoTime (r : Onu) : Onu := { r with lastSeen := 0 }

/-- Projection of a row that keeps only the fields the SNMP sync job never
    writes: everything but `details_snmp` and `last_seen`. -/
def projPrimary (r : Onu) : Onu := { r with detailsSnmp := none, lastSeen := 0 }

lemma projPrimary_updateSnmpFirst (oltId : Nat) (ident : String) (d : Details)
    (t : Nat) : ∀ s : Store,
    (updateSnmpFirst oltId ident d t s).map projPrimary = s.map projPrimary := by
  intro s
  induction s with
  | nil => rfl
  | cons r rs ih =>
    by_cases h : onuMatches oltId ident r
    · simp [updateSnmpFirst, h, projPrimary]
    · simp [updateSnmpFirst, h, ih]

lemma projPrimary_snmpStep (oltId t : Nat) (s : Store) (it : SnmpOnu) :
    (snmpStep oltId t s it).map projPrimary = s.map projPrimary := by
  by_cases h : s.any (onuMatches oltId it.identifier)
  · simp [snmpStep, h, projPrimary_updateSnmpFirst]
  · simp [snmpStep, h]

lemma projPrimary_run_snmp_store (oltId t : Nat) :
    ∀ (items : List SnmpOnu) (s : Store),
    (run_snmp_store oltId t items s).map projPrimary = s.map projPrimary := by
  intro items
  induction items with
  | nil => intro s; rfl
  | cons it its ih =>
    intro s
    show (run_snmp_store oltId t its (snmpStep oltId t s it)).map projPrimary = _
    rw [ih, projPrimary_snmpStep]

lemma updateSnmpFirst_decompose (oltId t : Nat) (ident : String) (d : Details) :
    ∀ (a : Store) (r : Onu) (b : Store),
    onuMatches oltId ident r = true →
    (∀ x ∈ a, onuMatches oltId ident x = false) →
    updateSnmpFirst oltId ident d t (a ++ r :: b) =
      a ++ { r with detailsSnmp := some d, lastSeen := t } :: b := by
  intro a
  induction a with
  | nil =>
    intro r b hr _
    simp [updateSnmpFirst, hr]
  | cons x xs ih =>
    intro r b hr ha
    have hx : onuMatches oltId ident x = false := ha x (by simp)
    simp only [List.cons_append, updateSnmpFirst, hx, Bool.false_eq_true,
      if_false]
    have := ih r b hr (fun y hy => ha y (by simp [hy]))
    simp only [List.append_eq] at this ⊢
    rw [this]

lemma any_matches_of_decompose (oltId : Nat) (ident : String)
    (a : Store) (r : Onu) (b : Store) (hr : onuMatches oltId ident r = true) :
    (a ++ r :: b).any (onuMatches oltId ident) = true := by
  simp [List.any_append, List.any_cons, hr]

/-- Claim C1: for every ONU record returned by an SNMP fetch, the SNMP sync
    job never inserts a new row: the whole loop leaves the primary detail
    map and every field other than `details_snmp` / `last_seen` of every row
    unchanged (and hence also the row count); an item whose (device,
    identifier) key has no matching row leaves the store completely
    unchanged; and an item whose key matches row `r` rewrites exactly `r`,
    changing only its `details_snmp` and `last_seen`. -/
theorem snmp_sync_updates_only_existing (oltId t : Nat) :
    (∀ (items : List SnmpOnu) (s : Store),
      (run_snmp_store oltId t items s).map projPrimary = s.map projPrimary) ∧
    (∀ (s : Store) (it : SnmpOnu),
      s.any (onuMatches oltId it.identifier) = false →
      snmpStep oltId t s it = s) ∧
    (∀ (a : Store) (r : Onu) (b : Store) (it : SnmpOnu),
      onuMatches oltId it.identifier r = true →
      (∀ x ∈ a, onuMatches oltId it.identifier x = false) →
      snmpStep oltId t (a ++ r :: b) it =
        a ++ { r with detailsSnmp := some it.details, lastSeen := t } :: b) := by
  refine ⟨projPrimary_run_snmp_store oltId t, ?_, ?_⟩
  · intro s it h
    simp [snmpStep, h]
  · intro a r b it hr ha
    rw [snmpStep, if_pos (any_matches_of_decompose oltId it.identifier a r b hr)]
    exact updateSnmpFirst_decompose oltId t it.identifier it.details a r b hr ha

/-- Witness for C1 at a concrete store: a matching SNMP item rewrites only
    the secondary detail map and timestamp of the matching row. -/
theorem snmp_sync_updates_only_existing_w :
    snmpStep 1 7 [{
      oltId := 1, identifier := "aa:bb", ponInterface := "1/1:3",
      vendorName := "hioso", details := [("status", "Up")],
      detailsSnmp := none, lastSeen := 3 }]
      {
        identifier := "aa:bb", details := [("rx", "-20")] } =
      [{
        oltId := 1, identifier := "aa:bb", ponInterface := "1/1:3",
        vendorName := "hioso", details := [("status", "Up")],
        detailsSnmp := some [("rx", "-20")], lastSeen := 7 }] := by
  have h := (snmp_sync_updates_only_existing 1 7).2.2 []
    {
      oltId := 1, identifier := "aa:bb", ponInterface := "1/1:3",
      vendorName := "hioso", details := [("status", "Up")],
      detailsSnmp := none, lastSeen := 3 } []
    {
      identifier := "aa:bb", details := [("rx", "-20")] }
    (by decide) (by intro x hx; cases hx)
  simpa using h

/-! ## Interactive sync: upsert characterization and idempotence (C2) -/

/-- The match condition of the interactive sync query, expressed through the
    row's key fields: row (rid, roid) matches item `it` for device `oltId`. -/
def matchesRow (oltId : Nat) (rid : String) (roid : Nat) (it : FetchedOnu) :
    Bool :=
  rid == it.identifier && roid == oltId

lemma onuMatches_eq_matchesRow (oltId : Nat) (it : FetchedOnu) (r : Onu) :
    onuMatches oltId it.identifier r = matchesRow oltId r.identifier r.oltId it :=
  rfl

/-- Details carried by the last item of the fetched list that matches the
    row with key (rid, roid), if any. -/
def lastFetchedDetails (oltId : Nat) (rid : String) (roid : Nat) :
    List FetchedOnu → Option Details
  | [] => none
  | it :: its =>
    match lastFetchedDetails oltId rid roid its with
    | some d => some d
    | none => if rid == it.identifier && roid == oltId then some it.details
              else none

lemma lastFetchedDetails_cons (oltId : Nat) (rid : String) (roid : Nat)
    (it : FetchedOnu) (its : List FetchedOnu) :
    lastFetchedDetails oltId rid roid (it :: its) =
      match lastFetchedDetails oltId rid roid its with
      | some d => some d
      | none => if rid == it.identifier && roid == oltId then some it.details
                else none := rfl

lemma interactiveStep_cons (oltId t : Nat) (r : Onu) (s : Store)
    (it : FetchedOnu) :
    interactiveStep oltId t (r :: s) it =
      if matchesRow oltId r.identifier r.oltId it then
        { r with details := it.details, lastSeen := t } :: s
      else r :: interactiveStep oltId t s it := by
  by_cases h : onuMatches oltId it.identifier r
  · have hm : matchesRow oltId r.identifier r.oltId it = true := h
    simp [interactiveStep, updateOnuFirst, List.any_cons, h, hm]
  · have hm : matchesRow oltId r.identifier r.oltId it = false := by
      rw [← onuMatches_eq_matchesRow]; exact Bool.not_eq_true _ ▸ (by simpa using h)
    by_cases h2 : s.any (onuMatches oltId it.identifier)
    · simp [interactiveStep, updateOnuFirst, List.any_cons, h, hm, h2]
    · simp [interactiveStep, updateOnuFirst, List.any_cons, h, hm, h2]

lemma run_i_cons (oltId t : Nat) :
    ∀ (items : List FetchedOnu) (r : Onu) (s : Store),
    run_ssh_telnet_store oltId t items (r :: s) =
      (match lastFetchedDetails oltId r.identifier r.oltId items with
       | some d => { r with details := d, lastSeen := t }
       | none => r) ::
      run_ssh_telnet_store oltId t
        (items.filter (fun it => !matchesRow oltId r.identifier r.oltId it)) s := by
  intro items
  induction items with
  | nil => intro r s; simp [run_ssh_telnet_store, lastFetchedDetails]
  | cons it its ih =>
    intro r s
    show run_ssh_telnet_store oltId t its (interactiveStep oltId t (r :: s) it) = _
    rw [interactiveStep_cons]
    cases hm : matchesRow oltId r.identifier r.oltId it with
    | false =>
      rw [if_neg (by simp [hm])]
      rw [ih r (interactiveStep oltId t s it)]
      have hfil : (it :: its).filter
          (fun x => !matchesRow oltId r.identifier r.oltId x) =
          it :: its.filter (fun x => !matchesRow oltId r.identifier r.oltId x) := by
        simp [List.filter_cons, hm]
      rw [hfil]
      have hlast : lastFetchedDetails oltId r.identifier r.oltId (it :: its) =
          lastFetchedDetails oltId r.identifier r.oltId its := by
        have hcond : (r.identifier == it.identifier && r.oltId == oltId) = false := hm
        rw [lastFetchedDetails_cons]
        cases lastFetchedDetails oltId r.identifier r.oltId its <;> simp [hcond]
      rw [hlast]
      rfl
    | true =>
      rw [if_pos (by simp [hm])]
      rw [ih { r with details := it.details, lastSeen := t } s]
      have hcond : (r.identifier == it.identifier && r.oltId == oltId) = true := hm
      have hfil2 : (it :: its).filter
          (fun x => !matchesRow oltId r.identifier r.oltId x) =
          its.filter (fun x => !matchesRow oltId r.identifier r.oltId x) := by
        simp [List.filter_cons, hm]
      cases hld : lastFetchedDetails oltId r.identifier r.oltId its with
      | none =>
        have hlast : lastFetchedDetails oltId r.identifier r.oltId (it :: its) =
            some it.details := by
          rw [lastFetchedDetails_cons, hld]; simp [hcond]
        simp only [hlast, hld, hfil2]
      | some d =>
        have hlast : lastFetchedDetails oltId r.identifier r.oltId (it :: its) =
            some d := by
          rw [lastFetchedDetails_cons, hld]
        simp only [hlast, hld, hfil2]

lemma interactiveStep_nil (oltId t : Nat) (it : FetchedOnu) :
    interactiveStep oltId t [] it = [newOnuRow oltId t it] := rfl

lemma run_i_nil_idem (oltId t : Nat) :
    ∀ (n : Nat) (items : List FetchedOnu), items.length ≤ n →
    run_ssh_telnet_store oltId t items (run_ssh_telnet_store oltId t items []) =
      run_ssh_telnet_store oltId t items [] := by
  intro n
  induction n with
  | zero =>
    intro items h
    have : items = [] := List.eq_nil_of_length_eq_zero (Nat.le_zero.mp h)
    subst this; rfl
  | succ n ih =>
    intro items h
    match items with
    | [] => rfl
    | it :: its =>
      have hlen : its.length ≤ n := by simp only [List.length_cons] at h; omega
      have h1 : run_ssh_telnet_store oltId t (it :: its) [] =
          run_ssh_telnet_store oltId t its [newOnuRow oltId t it] := rfl
      rw [h1, run_i_cons oltId t its (newOnuRow oltId t it) []]
      have hids : (newOnuRow oltId t it).identifier = it.identifier := rfl
      have hido : (newOnuRow oltId t it).oltId = oltId := rfl
      rw [hids, hido]
      have hfillen : (its.filter
          (fun x => !matchesRow oltId it.identifier oltId x)).length ≤ n :=
        le_trans (List.length_filter_le _ _) hlen
      cases hld : lastFetchedDetails oltId it.identifier oltId its with
      | none =>
        show run_ssh_telnet_store oltId t (it :: its) (newOnuRow oltId t it :: _) = _
        show run_ssh_telnet_store oltId t its
            (interactiveStep oltId t (newOnuRow oltId t it :: _) it) = _
        rw [interactiveStep_cons, if_pos (by simp [matchesRow, newOnuRow])]
        have heta : ({ newOnuRow oltId t it with
            details := it.details, lastSeen := t } : Onu) = newOnuRow oltId t it := rfl
        rw [heta, run_i_cons oltId t its (newOnuRow oltId t it) _, hids, hido, hld]
        rw [ih _ hfillen]
      | some d =>
        show run_ssh_telnet_store oltId t (it :: its)
            ({ newOnuRow oltId t it with details := d, lastSeen := t } :: _) = _
        show run_ssh_telnet_store oltId t its
            (interactiveStep oltId t
              ({ newOnuRow oltId t it with details := d, lastSeen := t } :: _) it) = _
        rw [interactiveStep_cons, if_pos (by simp [matchesRow, newOnuRow])]
        rw [run_i_cons oltId t its _ _]
        show (match lastFetchedDetails oltId it.identifier oltId its with
              | some d' =>
                ({ newOnuRow oltId t it with details := d', lastSeen := t } : Onu)
              | none =>
                ({ newOnuRow oltId t it with
                   details := it.details, lastSeen := t } : Onu)) ::
              run_ssh_telnet_store oltId t
                (its.filter (fun x => !matchesRow oltId it.identifier oltId x))
                (run_ssh_telnet_store oltId t
                  (its.filter (fun x => !matchesRow oltId it.identifier oltId x)) []) = _
        rw [hld, ih _ hfillen]
        rfl

lemma run_i_idem (oltId t : Nat) :
    ∀ (s : Store) (items : List FetchedOnu),
    run_ssh_telnet_store oltId t items (run_ssh_telnet_store oltId t items s) =
      run_ssh_telnet_store oltId t items s := by
  intro s
  induction s with
  | nil => intro items; exact run_i_nil_idem oltId t items.length items le_rfl
  | cons r s ih =>
    intro items
    rw [run_i_cons oltId t items r s]
    cases hld : lastFetchedDetails oltId r.identifier r.oltId items with
    | none =>
      rw [run_i_cons oltId t items r _, hld]
      rw [ih _]
    | some d =>
      rw [run_i_cons oltId t items { r with details := d, lastSeen := t } _]
      have hids : ({ r with details := d, lastSeen := t } : Onu).identifier =
          r.identifier := rfl
      have hido : ({ r with details := d, lastSeen := t } : Onu).oltId = r.oltId := rfl
      simp only [hids, hido, hld]
      rw [ih _]

lemma projNoTime_run_nil (oltId t t' : Nat) :
    ∀ (n : Nat) (items : List FetchedOnu), items.length ≤ n →
    (run_ssh_telnet_store oltId t items []).map projNoTime =
      (run_ssh_telnet_store oltId t' items []).map projNoTime := by
  intro n
  induction n with
  | zero =>
    intro items h
    have : items = [] := List.eq_nil_of_length_eq_zero (Nat.le_zero.mp h)
    subst this; rfl
  | succ n ih =>
    intro items h
    match items with
    | [] => rfl
    | it :: its =>
      have hlen : its.length ≤ n := by simp only [List.length_cons] at h; omega
      have h1 : run_ssh_telnet_store oltId t (it :: its) [] =
          run_ssh_telnet_store oltId t its [newOnuRow oltId t it] := rfl
      have h1' : run_ssh_telnet_store oltId t' (it :: its) [] =
          run_ssh_telnet_store oltId t' its [newOnuRow oltId t' it] := rfl
      rw [h1, h1', run_i_cons oltId t its (newOnuRow oltId t it) [],
        run_i_cons oltId t' its (newOnuRow oltId t' it) []]
      have hids : (newOnuRow oltId t it).identifier = it.identifier := rfl
      have hido : (newOnuRow oltId t it).oltId = oltId := rfl
      have hids' : (newOnuRow oltId t' it).identifier = it.identifier := rfl
      have hido' : (newOnuRow oltId t' it).oltId = oltId := rfl
      rw [hids, hido, hids', hido']
      have hfillen : (its.filter
          (fun x => !matchesRow oltId it.identifier oltId x)).length ≤ n :=
        le_trans (List.length_filter_le _ _) hlen
      cases hld : lastFetchedDetails oltId it.identifier oltId its with
      | none =>
        simp only [List.map_cons]
        rw [ih _ hfillen]
        rfl
      | some d =>
        simp only [List.map_cons]
        rw [ih _ hfillen]
        rfl

lemma projNoTime_run (oltId t t' : Nat) :
    ∀ (s : Store) (items : List FetchedOnu),
    (run_ssh_telnet_store oltId t items s).map projNoTime =
      (run_ssh_telnet_store oltId t' items s).map projNoTime := by
  intro s
  induction s with
  | nil => intro items; exact projNoTime_run_nil oltId t t' items.length items le_rfl
  | cons r s ih =>
    intro items
    rw [run_i_cons oltId t items r s, run_i_cons oltId t' items r s]
    cases hld : lastFetchedDetails oltId r.identifier r.oltId items with
    | none =>
      simp only [List.map_cons]
      rw [ih _]
    | some d =>
      simp only [List.map_cons]
      rw [ih _]
      rfl

lemma updateOnuFirst_decompose (oltId t : Nat) (ident : String) (d : Details) :
    ∀ (a : Store) (r : Onu) (b : Store),
    onuMatches oltId ident r = true →
    (∀ x ∈ a, onuMatches oltId ident x = false) →
    updateOnuFirst oltId ident d t (a ++ r :: b) =
      a ++ { r with details := d, lastSeen := t } :: b := by
  intro a
  induction a with
  | nil =>
    intro r b hr _
    simp [updateOnuFirst, hr]
  | cons x xs ih =>
    intro r b hr ha
    have hx : onuMatches oltId ident x = false := ha x (by simp)
    simp only [List.cons_append, updateOnuFirst, hx, Bool.false_eq_true, if_false]
    have := ih r b hr (fun y hy => ha y (by simp [hy]))
    simp only [List.append_eq] at this ⊢
    rw [this]

/-- Claim C2: the interactive sync upserts by (device, identifier): with no
    matching row, the fetched record is inserted as a new row carrying the
    fetched identifier, interface locator, vendor tag and detail map; with a
    matching row, exactly that row's primary detail map is overwritten and
    its timestamp refreshed; and running the whole loop a second time on the
    same fetched list leaves every row's fields (timestamp excepted) and the
    row count unchanged. -/
theorem interactive_sync_upsert_idempotent (oltId t1 t2 : Nat) :
    (∀ (s : Store) (it : FetchedOnu),
      s.any (onuMatches oltId it.identifier) = false →
      interactiveStep oltId t1 s it = s ++ [newOnuRow oltId t1 it]) ∧
    (∀ (a : Store) (r : Onu) (b : Store) (it : FetchedOnu),
      onuMatches oltId it.identifier r = true →
      (∀ x ∈ a, onuMatches oltId it.identifier x = false) →
      interactiveStep oltId t1 (a ++ r :: b) it =
        a ++ { r with details := it.details, lastSeen := t1 } :: b) ∧
    (∀ (items : List FetchedOnu) (s : Store),
      (run_ssh_telnet_store oltId t2 items
          (run_ssh_telnet_store oltId t1 items s)).map projNoTime =
        (run_ssh_telnet_store oltId t1 items s).map projNoTime) ∧
    (∀ (items : List FetchedOnu) (s : Store),
      (run_ssh_telnet_store oltId t2 items
          (run_ssh_telnet_store oltId t1 items s)).length =
        (run_ssh_telnet_store oltId t1 items s).length) := by
  have hidem : ∀ (items : List FetchedOnu) (s : Store),
      (run_ssh_telnet_store oltId t2 items
          (run_ssh_telnet_store oltId t1 items s)).map projNoTime =
        (run_ssh_telnet_store oltId t1 items s).map projNoTime := by
    intro items s
    rw [projNoTime_run oltId t2 t1 (run_ssh_telnet_store oltId t1 items s) items]
    exact congrArg (List.map projNoTime) (run_i_idem oltId t1 s items)
  refine ⟨?_, ?_, hidem, ?_⟩
  · intro s it h
    simp [interactiveStep, h]
  · intro a r b it hr ha
    rw [interactiveStep, if_pos (any_matches_of_decompose oltId it.identifier a r b hr)]
    exact updateOnuFirst_decompose oltId t1 it.identifier it.details a r b hr ha
  · intro items s
    have h := congrArg List.length (hidem items s)
    simpa using h

/-- Witness for C2 at a concrete input: inserting into an empty store. -/
theorem interactive_sync_upsert_idempotent_w :
    interactiveStep 2 5 []
      {
        identifier := "98c7a45e30b8", ponInterface := "1/1:3",
        vendorName := "hioso", details := [("status", "Up")] } =
      [newOnuRow 2 5 {
        identifier := "98c7a45e30b8", ponInterface := "1/1:3",
        vendorName := "hioso", details := [("status", "Up")] }] := by
  have h := (interactive_sync_upsert_idempotent 2 5 6).1 []
    {
      identifier := "98c7a45e30b8", ponInterface := "1/1:3",
      vendorName := "hioso", details := [("status", "Up")] } rfl
  simpa using h

/-! ## Sync job payloads (C3): tasks.py run_ssh_telnet_sync / run_snmp_sync -/

/-- The structured dictionary a sync task returns: either an error payload
    or a message payload, never a raised exception. -/
inductive Payload where
  | errP : String → Payload
  | msgP : String → Payload
deriving Repr, DecidableEq

/-- Whether a payload is an error payload (the dict with the "error" key). -/
def Payload.isErr : Payload → Bool
  | .errP _ => true
  | .msgP _ => false

/-- The OLT row fields the jobs read for payload building. -/
structure OltCfg where
  olt_id : Nat
  ip : String
deriving Repr, DecidableEq

/-- Outcome of running a vendor adapter fetch under the job's try block:
    the adapter raised, returned an error-flagged dictionary, or returned a
    list of records (possibly empty). -/
inductive AdapterOutcome (α : Type) where
  | raised : String → AdapterOutcome α
  | flagged : String → AdapterOutcome α
  | ok : List α → AdapterOutcome α
deriving Repr, DecidableEq

/-- run_ssh_telnet_sync (tasks.py): missing OLT row and raised or
    error-flagged adapter results yield an error payload with the store
    rolled back; a fetched list (even an empty one) is persisted by the
    upsert loop and yields a success message embedding `synced_count`. -/
def run_ssh_telnet_sync (oltIdArg t : Nat) (olt : Option OltCfg)
    (outcome : AdapterOutcome FetchedOnu) (s : Store) : Payload × Store :=
  match olt with
  | none => (.errP ("OLT with id " ++ toString oltIdArg ++ " not found."), s)
  | some o =>
    match outcome with
    | .raised e => (.errP e, s)
    | .flagged e => (.errP e, s)
    | .ok items =>
      let p := run_ssh_telnet_pair o.olt_id t items (s, 0)
      (.msgP ("Successfully synced " ++ toString p.2 ++ " ONUs for OLT " ++ o.ip),
       p.1)

/-- run_snmp_sync (tasks.py): missing OLT row and raised or error-flagged
    adapter results yield an error payload with the store rolled back; an
    empty fetched list returns the "No ONUs found" message before the loop;
    a non-empty list is folded by the update-only loop and yields a success
    message embedding `updated_count`. -/
def run_snmp_sync (oltIdArg t : Nat) (olt : Option OltCfg)
    (outcome : AdapterOutcome SnmpOnu) (s : Store) : Payload × Store :=
  match olt with
  | none => (.errP ("OLT with id " ++ toString oltIdArg ++ " not found."), s)
  | some o =>
    match outcome with
    | .raised e => (.errP e, s)
    | .flagged e => (.errP e, s)
    | .ok [] => (.msgP "No ONUs found via SNMP or error in communication.", s)
    | .ok (i :: is) =>
      let p := run_snmp_pair o.olt_id t (i :: is) (s, 0)
      (.msgP ("Sync complete for OLT " ++ o.ip ++ " via SNMP. Updated " ++
        toString p.2 ++ " ONUs."), p.1)

lemma run_ssh_telnet_pair_count (oltId t : Nat) :
    ∀ (items : List FetchedOnu) (s : Store) (n : Nat),
    (run_ssh_telnet_pair oltId t items (s, n)).2 = n + items.length := by
  intro items
  induction items with
  | nil => intro s n; simp [run_ssh_telnet_pair]
  | cons it its ih =>
    intro s n
    show (run_ssh_telnet_pair oltId t its (interactiveStep oltId t s it, n + 1)).2 = _
    rw [ih]
    simp [Nat.add_comm, Nat.add_assoc, Nat.add_left_comm]

/-- Claim C3 counterexample: an adapter outcome with no records makes
    run_snmp_sync return a message payload (not the error payload the claim
    requires for an empty result). -/
theorem sync_jobs_empty_result_payload_cex :
    (run_snmp_sync 1 0 (some { olt_id := 1, ip := "10.0.0.1" })
      (.ok []) []).1.isErr = false ∧
    (run_snmp_sync 1 0 (some { olt_id := 1, ip := "10.0.0.1" })
      (.ok []) []).1 =
      .msgP "No ONUs found via SNMP or error in communication." := by
  exact ⟨rfl, rfl⟩

/-- Claim C3 (amended): both sync jobs always return a structured payload;
    a raised error or an error-flagged adapter result yields an error
    payload with the store left as it was (rolled back); an empty SNMP
    result yields the "No ONUs found" message payload with the store
    unchanged, and an empty interactive result a success payload counting
    zero records; a successful fetch yields a success payload whose message
    carries the count of affected records. -/
theorem sync_jobs_payload_amended (oltIdArg t : Nat) (o : OltCfg) (s : Store) :
    (∀ e, run_ssh_telnet_sync oltIdArg t (some o) (.raised e) s = (.errP e, s)) ∧
    (∀ e, run_ssh_telnet_sync oltIdArg t (some o) (.flagged e) s = (.errP e, s)) ∧
    (∀ e, run_snmp_sync oltIdArg t (some o) (.raised e) s = (.errP e, s)) ∧
    (∀ e, run_snmp_sync oltIdArg t (some o) (.flagged e) s = (.errP e, s)) ∧
    (∀ outcome, run_ssh_telnet_sync oltIdArg t none outcome s =
      (.errP ("OLT with id " ++ toString oltIdArg ++ " not found."), s)) ∧
    (∀ outcome, run_snmp_sync oltIdArg t none outcome s =
      (.errP ("OLT with id " ++ toString oltIdArg ++ " not found."), s)) ∧
    (run_snmp_sync oltIdArg t (some o) (.ok []) s =
      (.msgP "No ONUs found via SNMP or error in communication.", s)) ∧
    (∀ items, run_ssh_telnet_sync oltIdArg t (some o) (.ok items) s =
      (.msgP ("Successfully synced " ++ toString items.length ++
        " ONUs for OLT " ++ o.ip),
       (run_ssh_telnet_pair o.olt_id t items (s, 0)).1)) ∧
    (∀ i is, run_snmp_sync oltIdArg t (some o) (.ok (i :: is)) s =
      (.msgP ("Sync complete for OLT " ++ o.ip ++ " via SNMP. Updated " ++
        toString (run_snmp_pair o.olt_id t (i :: is) (s, 0)).2 ++ " ONUs."),
       (run_snmp_pair o.olt_id t (i :: is) (s, 0)).1)) := by
  refine ⟨fun e => rfl, fun e => rfl, fun e => rfl, fun e => rfl,
    fun outcome => rfl, fun outcome => rfl, rfl, ?_, fun i is => rfl⟩
  intro items
  show ((.msgP ("Successfully synced " ++
      toString (run_ssh_telnet_pair o.olt_id t items (s, 0)).2 ++
      " ONUs for OLT " ++ o.ip) : Payload),
    (run_ssh_telnet_pair o.olt_id t items (s, 0)).1) = _
  rw [run_ssh_telnet_pair_count o.olt_id t items s 0]
  simp

/-! ## Character classes and regex building blocks

The Hioso line grammar (telnet_service.py, `_parse_onus`) is a sequence of
greedy character-class runs in which every class is disjoint from the class
of the atom that follows it (digits vs '/', ':' and whitespace; the MAC
class, word class and digit class vs whitespace), so the Python regex's
greedy matching is equivalent to deterministic maximal munch; the only
back-trackable junction, the final whitespace run before the catch-all
group, is implemented with explicit backtracking below. -/

/-- ASCII whitespace class of the regexes (space, tab, nl, cr, vt, ff). -/
def isWsC (c : Char) : Bool :=
  c = ' ' || c = '\t' || c = '\n' || c = '\r' || c = '\x0b' || c = '\x0c'

/-- Hex digit class 0-9a-fA-F. -/
def isHexC (c : Char) : Bool :=
  c.isDigit || (97 ≤ c.toNat && c.toNat ≤ 102) || (65 ≤ c.toNat && c.toNat ≤ 70)

/-- The onuMac column class of the Hioso grammar. -/
def isMacC (c : Char) : Bool :=
  isHexC c || c = ':' || c = '.' || c = '-'

/-- ASCII word class (letters, digits, underscore). -/
def isWordC (c : Char) : Bool :=
  c.isAlphanum || c = '_'

/-- The control characters stripped from each line, ASCII 0-31 and 127. -/
def isCtlC (c : Char) : Bool :=
  c.toNat ≤ 31 || c.toNat = 127

/-- Dash class of the pagination banner patterns. -/
def isDashC (c : Char) : Bool := c = '-'

/-- Upper-case ASCII letter test (used to state case normalization). -/
def isUpperAscii (c : Char) : Bool := 65 ≤ c.toNat && c.toNat ≤ 90

/-- Maximal non-empty run of a character class (a greedy `class+` atom). -/
def takeRun1 (p : Char → Bool) (l : List Char) : Option (List Char × List Char) :=
  let r := l.takeWhile p
  if r.isEmpty then none else some (r, l.drop r.length)

/-- A single literal character. -/
def expectCh (c : Char) : List Char → Option (List Char)
  | x :: xs => if x = c then some xs else none
  | [] => none

/-- A literal string; returns the remainder after it. -/
def dropLit : List Char → List Char → Option (List Char)
  | [], l => some l
  | p :: ps, c :: cs => if c = p then dropLit ps cs else none
  | _ :: _, [] => none

/-- Python `str.strip()` (both ends, whitespace). -/
def pyStrip (l : List Char) : List Char :=
  ((l.dropWhile isWsC).reverse.dropWhile isWsC).reverse

/-- Python `str.splitlines()` worker: current line accumulator (reversed)
    and remaining input; a trailing break yields no extra empty line. -/
def splitLinesAux (cur : List Char) : List Char → List (List Char)
  | [] => [cur.reverse]
  | '\r' :: '\n' :: [] => [cur.reverse]
  | '\r' :: '\n' :: r => cur.reverse :: splitLinesAux [] r
  | c :: r =>
    if c = '\n' || c = '\r' || c = '\x0b' || c = '\x0c' || c.toNat = 28 ||
        c.toNat = 29 || c.toNat = 30 || c.toNat = 133 then
      match r with
      | [] => [cur.reverse]
      | _ => cur.reverse :: splitLinesAux [] r
    else splitLinesAux (c :: cur) r

/-- Python `str.splitlines()` on the ASCII line-break repertoire. -/
def splitLinesPy (l : List Char) : List (List Char) :=
  match l with
  | [] => []
  | _ => splitLinesAux [] l

/-- One re.sub pass: scan left to right, replace each non-overlapping
    leftmost match (the matcher returns the remainder after a match) and
    continue after it. Fuelled by the input length; every matcher used here
    consumes at least one character per match, so the fuel never runs out. -/
def subScanAux (m : List Char → Option (List Char)) (repl : List Char) :
    Nat → List Char → List Char
  | 0, l => l
  | _ + 1, [] => []
  | f + 1, c :: rest =>
    match m (c :: rest) with
    | some rem => repl ++ subScanAux m repl f rem
    | none => c :: subScanAux m repl f rest

/-- re.sub with a given position matcher and replacement. -/
def pySub (m : List Char → Option (List Char)) (repl : List Char)
    (l : List Char) : List Char :=
  subScanAux m repl l.length l

/-- Python `str.replace(pat, repl)` (single pass, no rescan of the
    replacement). -/
def pyReplace (pat repl : List Char) (l : List Char) : List Char :=
  pySub (fun x => if pat.isEmpty then none else dropLit pat x) repl l

/-! ## Hioso Telnet parser (vendors/hioso/telnet_service.py `_parse_onus`) -/

/-- Matcher for the paging banner cleaned at the start of `_parse_onus`:
    two or more dashes, the literal Press-Enter text, two or more dashes,
    then any run of backspace characters (the class in the source holds a
    literal 0x08). -/
def matchPressBanner (l : List Char) : Option (List Char) :=
  match takeRun1 isDashC l with
  | none => none
  | some (d1, r1) =>
    if d1.length < 2 then none else
    match dropLit " Press Enter Or Space To Continue ".toList r1 with
    | none => none
    | some r2 =>
      match takeRun1 isDashC r2 with
      | none => none
      | some (d2, r3) =>
        if d2.length < 2 then none
        else some (r3.dropWhile (fun c => c = '\x08'))

/-- The ten capture groups of the Hioso ONU line grammar. -/
structure OnuLineGroups where
  onuId : List Char
  onuMac : List Char
  statusG : List Char
  ports : List Char
  chipId : List Char
  version : List Char
  flags : List Char
  authMode : List Char
  distance : List Char
  timeG : List Char
deriving Repr, DecidableEq

/-- Backtracking for the final whitespace-then-rest junction of the
    grammar: give back whitespace from the right until the catch-all group
    can start with a character other than a newline. -/
def finalBacktrack : Nat → List Char → Option (List Char)
  | 0, _ => none
  | k + 1, l =>
    let t := l.drop (k + 1)
    if t ≠ [] ∧ t.head? ≠ some '\n' then some (t.takeWhile (fun c => c ≠ '\n'))
    else finalBacktrack k l

/-- The final whitespace run followed by the catch-all time group. -/
def matchFinal (l : List Char) : Option (List Char) :=
  let w := l.takeWhile isWsC
  if w.isEmpty then none else finalBacktrack w.length l

/-- A whitespace run followed by a greedy class run (the `\s+` separator
    between two column groups). -/
def wsThen (p : Char → Bool) (l : List Char) : Option (List Char × List Char) :=
  match takeRun1 isWsC l with
  | none => none
  | some (_, l1) => takeRun1 p l1

/-- The pon/onu locator group of the grammar (digits, '/', digits, ':',
    digits). -/
def matchOnuId (l : List Char) : Option (List Char × List Char) :=
  match takeRun1 Char.isDigit l with
  | none => none
  | some (d1, l1) =>
    match expectCh '/' l1 with
    | none => none
    | some l2 =>
      match takeRun1 Char.isDigit l2 with
      | none => none
      | some (d2, l3) =>
        match expectCh ':' l3 with
        | none => none
        | some l4 =>
          match takeRun1 Char.isDigit l4 with
          | none => none
          | some (d3, l5) => some (d1 ++ '/' :: d2 ++ ':' :: d3, l5)

/-- The Hioso ONU line grammar (onu_pattern in `_parse_onus`), matched at
    the start of a line. -/
def matchOnuLine (l : List Char) : Option OnuLineGroups := do
  let (g1, l5) ← matchOnuId (l.dropWhile isWsC)
  let (g2, l6) ← wsThen isMacC l5
  let (g3, l7) ← wsThen isWordC l6
  let (g4, l8) ← wsThen Char.isDigit l7
  let (g5, l9) ← wsThen isWordC l8
  let (g6, l10) ← wsThen isWordC l9
  let (g7, l11) ← wsThen Char.isDigit l10
  let (g8, l12) ← wsThen isWordC l11
  let (g9, l13) ← wsThen Char.isDigit l12
  let g10 ← matchFinal l13
  pure ⟨g1, g2, g3, g4, g5, g6, g7, g8, g9, g10⟩

/-- Decimal value of a digit run (Python `int(...)` on the captured group). -/
def natOfDigits (l : List Char) : Nat :=
  l.foldl (fun n c => n * 10 + (c.toNat - 48)) 0

/-- The normalized identifier of a parsed Hioso line: every character of
    the MAC column that is not a hex digit is removed (case is preserved). -/
def hioso_onu_identifier (mac : List Char) : List Char :=
  mac.filter isHexC

/-- The details map built from the ten groups (integer columns rendered by
    their decimal value, the time column stripped). -/
def hiosoDetails (g : OnuLineGroups) : Details :=
  [("onuId", String.mk g.onuId), ("onuMac", String.mk g.onuMac),
   ("status", String.mk g.statusG), ("ports", toString (natOfDigits g.ports)),
   ("chipId", String.mk g.chipId), ("version", String.mk g.version),
   ("flags", toString (natOfDigits g.flags)),
   ("authMode", String.mk g.authMode),
   ("distance", toString (natOfDigits g.distance)),
   ("time", String.mk (pyStrip g.timeG))]

/-- The canonical record built from one matched line. -/
def hiosoRecOfGroups (g : OnuLineGroups) : FetchedOnu :=
  { identifier := String.mk (hioso_onu_identifier g.onuMac),
    ponInterface := String.mk g.onuId, vendorName := "hioso",
    details := hiosoDetails g }

/-- Per-line processing of `_parse_onus`: strip control characters and
    surrounding whitespace, skip empty lines, then match the grammar. -/
def hiosoLineRecord (line : List Char) : Option FetchedOnu :=
  if (pyStrip (line.filter (fun c => !isCtlC c))).isEmpty then none
  else (matchOnuLine (pyStrip (line.filter (fun c => !isCtlC c)))).map
    hiosoRecOfGroups

/-- `_parse_onus` of the Hioso Telnet service: replace the Press-Enter
    paging banner by a newline, split into lines, and parse each line,
    skipping lines that do not match. -/
def hioso_parse_onus (raw : List Char) : List FetchedOnu :=
  (splitLinesPy (pySub matchPressBanner ['\n'] raw)).filterMap hiosoLineRecord

/-! ## HSGQ EPON SNMP correlator (vendors/hsgq/epon_snmp_service.py) -/

/-- Python dict assignment `d[k] = v` on an insertion-ordered assoc list. -/
def assocSet (k : String) (v : String) :
    List (String × String) → List (String × String)
  | [] => [(k, v)]
  | (k', v') :: rest =>
    if k' = k then (k, v) :: rest else (k', v') :: assocSet k v rest

/-- Python `d.get(k)` on an assoc list. -/
def assocGet (k : String) : List (String × String) → Option String
  | [] => none
  | (k', v) :: rest => if k' = k then some v else assocGet k rest

/-- One `onus_by_index[index][data_key] = value` step of get_onus,
    creating the per-index dict (seeded with onu_index) when absent. -/
def indexUpsert (idx : String) (key : String) (v : String) :
    List (String × List (String × String)) →
    List (String × List (String × String))
  | [] => [(idx, assocSet key v [("onu_index", idx)])]
  | (i, data) :: rest =>
    if i = idx then (i, assocSet key v data) :: rest
    else (i, data) :: indexUpsert idx key v rest

/-- The correlation fold of get_onus: per-field walk results (field name to
    list of index/value pairs, in walk order) folded into the per-index
    partial records. -/
def foldSnmpData (snmpData : List (String × List (String × String))) :
    List (String × List (String × String)) :=
  snmpData.foldl
    (fun acc kv => kv.2.foldl (fun acc iv => indexUpsert iv.1 kv.1 iv.2 acc) acc)
    []

/-- The MAC cleaning pipeline of get_onus: drop every occurrence of the
    two-character substring 0x, drop spaces and colons, then lower-case. -/
def cleanedMac (raw : List Char) : List Char :=
  ((pyReplace "0x".toList [] raw).filter
    (fun c => !(c = ' ' || c = ':'))).map Char.toLower

/-- Python `':'.join(cleaned[i:i+2] for i in range(0, len(cleaned), 2))`. -/
def formatMacPairs : List Char → List Char
  | [] => []
  | [a] => [a]
  | [a, b] => [a, b]
  | a :: b :: c :: rest => a :: b :: ':' :: formatMacPairs (c :: rest)

/-- The identifier derivation of get_onus for one correlated index: skip
    when the MAC field is absent or empty, clean it, and require exactly
    twelve characters before formatting. -/
def epon_mac_of (data : List (String × String)) : Option (List Char) :=
  match assocGet "mac_address" data with
  | none => none
  | some raw =>
    if raw.isEmpty then none
    else if (cleanedMac raw.toList).length = 12 then
      some (formatMacPairs (cleanedMac raw.toList))
    else none

/-- The record emission loop of get_onus: one canonical record per
    correlated index whose MAC survives the pipeline. The details map is
    modelled by the correlated raw data (the fixed-point power rendering is
    floating-point in the source and not modelled; it does not affect the
    identifier or the emission condition). -/
def hsgq_epon_records (snmpData : List (String × List (String × String))) :
    List FetchedOnu :=
  (foldSnmpData snmpData).filterMap (fun p =>
    match epon_mac_of p.2 with
    | none => none
    | some mac =>
      some { identifier := String.mk mac, ponInterface := "N/A",
             vendorName := "hsgq_epon", details := p.2 })

/-! ## Identifier shape of parser and correlator output (C4) -/

lemma toLower_not_upper (c : Char) : isUpperAscii (Char.toLower c) = false := by
  unfold Char.toLower
  by_cases h : c.toNat ≥ 65 ∧ c.toNat ≤ 90
  · rw [if_pos h]
    obtain ⟨h1, h2⟩ := h
    interval_cases hn : c.toNat
    all_goals decide
  · rw [if_neg h]
    simp only [isUpperAscii, Bool.and_eq_false_iff, decide_eq_false_iff_not]
    omega

lemma toLower_ne_colon (c : Char) (h : c ≠ ':') : Char.toLower c ≠ ':' := by
  unfold Char.toLower
  by_cases hc : c.toNat ≥ 65 ∧ c.toNat ≤ 90
  · rw [if_pos hc]
    obtain ⟨h1, h2⟩ := hc
    interval_cases hn : c.toNat
    all_goals decide
  · rw [if_neg hc]; exact h

lemma cleanedMac_no_colon (raw : List Char) : ∀ c ∈ cleanedMac raw, c ≠ ':' := by
  intro c hc
  simp only [cleanedMac, List.mem_map] at hc
  obtain ⟨c', hc', rfl⟩ := hc
  have h2 := (List.mem_filter.mp hc').2
  simp only [Bool.not_eq_true', Bool.or_eq_false_iff, decide_eq_false_iff_not]
    at h2
  exact toLower_ne_colon c' h2.2

lemma cleanedMac_no_upper (raw : List Char) :
    ∀ c ∈ cleanedMac raw, isUpperAscii c = false := by
  intro c hc
  simp only [cleanedMac, List.mem_map] at hc
  obtain ⟨c', _, rfl⟩ := hc
  exact toLower_not_upper c'

lemma formatMacPairs_length : ∀ l : List Char,
    (formatMacPairs l).length = l.length + (l.length - 1) / 2 := by
  intro l
  induction l using formatMacPairs.induct <;>
    (simp_all [formatMacPairs]; try omega)

lemma formatMacPairs_mem : ∀ (l : List Char) (c : Char),
    c ∈ formatMacPairs l → c = ':' ∨ c ∈ l := by
  intro l
  induction l using formatMacPairs.induct with
  | case1 => intro c hc; simp [formatMacPairs] at hc
  | case2 a => intro c hc; simp [formatMacPairs] at hc; simp [hc]
  | case3 a b =>
    intro c hc
    simp [formatMacPairs] at hc
    rcases hc with h | h <;> simp [h]
  | case4 a b d rest ih =>
    intro c hc
    simp only [formatMacPairs, List.mem_cons] at hc
    rcases hc with h | h | h | h
    · right; simp [h]
    · right; simp [h]
    · left; exact h
    · rcases ih c h with h2 | h2
      · left; exact h2
      · right; simp only [List.mem_cons] at h2 ⊢; tauto

lemma formatMacPairs_get_colon : ∀ (l : List Char), (∀ c ∈ l, c ≠ ':') →
    ∀ (i : Nat) (h : i < (formatMacPairs l).length),
    ((formatMacPairs l).get ⟨i, h⟩ = ':' ↔ i % 3 = 2) := by
  intro l
  induction l using formatMacPairs.induct with
  | case1 => intro _ i h; simp [formatMacPairs] at h
  | case2 a =>
    intro hmem i h
    have h2 : i < 1 := by simpa [formatMacPairs] using h
    interval_cases i
    · simpa [formatMacPairs] using hmem a (by simp)
  | case3 a b =>
    intro hmem i h
    have h2 : i < 2 := by simpa [formatMacPairs] using h
    interval_cases i
    · simpa [formatMacPairs] using hmem a (by simp)
    · simpa [formatMacPairs] using hmem b (by simp)
  | case4 a b d rest ih =>
    intro hmem i h
    match i with
    | 0 => simpa [formatMacPairs] using hmem a (by simp)
    | 1 => simpa [formatMacPairs] using hmem b (by simp)
    | 2 => simp [formatMacPairs]
    | n + 3 =>
      have hlt : n < (formatMacPairs (d :: rest)).length := by
        simp only [formatMacPairs, List.length_cons] at h; omega
      have hstep := ih (fun c hc => hmem c (by
        simp only [List.mem_cons] at hc ⊢; tauto)) n hlt
      simp only [formatMacPairs, List.get_cons_succ]
      rw [hstep]
      omega

lemma epon_mac_of_eq_some (data : List (String × String)) (mac : List Char)
    (h : epon_mac_of data = some mac) :
    ∃ raw, assocGet "mac_address" data = some raw ∧ raw.isEmpty = false ∧
      (cleanedMac raw.toList).length = 12 ∧
      mac = formatMacPairs (cleanedMac raw.toList) := by
  unfold epon_mac_of at h
  cases hg : assocGet "mac_address" data with
  | none => rw [hg] at h; exact absurd h (by simp)
  | some raw =>
    rw [hg] at h
    dsimp only at h
    cases he : raw.isEmpty with
    | true => rw [he] at h; simp at h
    | false =>
      rw [he] at h
      simp only [Bool.false_eq_true, if_false] at h
      by_cases hl : (cleanedMac raw.toList).length = 12
      · rw [if_pos hl] at h
        exact ⟨raw, rfl, he, hl, (Option.some.injEq _ _ ▸ h).symm⟩
      · rw [if_neg hl] at h
        simp at h

lemma hiosoLineRecord_eq_some (line : List Char) (r : FetchedOnu)
    (h : hiosoLineRecord line = some r) : ∃ g, r = hiosoRecOfGroups g := by
  unfold hiosoLineRecord at h
  cases he : (pyStrip (line.filter (fun c => !isCtlC c))).isEmpty with
  | true => rw [he] at h; simp at h
  | false =>
    rw [he] at h
    simp only [Bool.false_eq_true, if_false, Option.map_eq_some'] at h
    obtain ⟨g, _, hg2⟩ := h
    exact ⟨g, hg2.symm⟩

/-- Claim C4 counterexample: a line whose MAC column is just two colons
    matches the grammar and the Hioso parser emits a record whose
    identifier is the empty string (the claim forbids records with an empty
    identifier). -/
theorem parser_empty_identifier_cex :
    (hioso_parse_onus "1/1:3 :: Up 1 0x0 0x4853 1 Undef 100 22 hours".toList).map
      (fun r => r.identifier) = [""] := by
  rfl

/-- Claim C4 (amended): the Hioso Telnet parser emits records whose
    identifier consists of the hex characters of the matched MAC column
    with separators stripped and case preserved — which may be empty when
    the column holds only separator characters; the HSGQ EPON correlator
    emits only non-empty normalized identifiers: seventeen characters,
    colons exactly at every third position, no upper-case character, and
    indices with a missing, empty or non-twelve-character MAC produce no
    record. -/
theorem parser_identifier_shape_amended :
    (∀ (raw : List Char) (r : FetchedOnu), r ∈ hioso_parse_onus raw →
      r.vendorName = "hioso" ∧ ∀ c ∈ r.identifier.data, isHexC c = true) ∧
    (∀ (snmpData : List (String × List (String × String))) (r : FetchedOnu),
      r ∈ hsgq_epon_records snmpData →
      r.vendorName = "hsgq_epon" ∧
      r.identifier.data.length = 17 ∧
      r.identifier ≠ "" ∧
      (∀ (i : Nat) (h : i < r.identifier.data.length),
        (r.identifier.data.get ⟨i, h⟩ = ':' ↔ i % 3 = 2)) ∧
      (∀ c ∈ r.identifier.data, isUpperAscii c = false)) := by
  constructor
  · intro raw r hr
    unfold hioso_parse_onus at hr
    obtain ⟨line, _, hf⟩ := List.mem_filterMap.mp hr
    obtain ⟨g, rfl⟩ := hiosoLineRecord_eq_some line r hf
    refine ⟨rfl, ?_⟩
    intro c hc
    exact (List.mem_filter.mp hc).2
  · intro sd r hr
    unfold hsgq_epon_records at hr
    obtain ⟨p, _, hf⟩ := List.mem_filterMap.mp hr
    cases hm : epon_mac_of p.2 with
    | none => rw [hm] at hf; exact absurd hf (by simp)
    | some mac =>
      rw [hm] at hf
      have hr2 : ({
          identifier := String.mk mac, ponInterface := "N/A",
          vendorName := "hsgq_epon", details := p.2 } : FetchedOnu) = r :=
        Option.some.injEq _ _ ▸ hf
      subst hr2
      obtain ⟨rawm, _, _, hl12, rfl⟩ := epon_mac_of_eq_some p.2 mac hm
      have hnc : ∀ c ∈ cleanedMac rawm.toList, c ≠ ':' := cleanedMac_no_colon _
      have hnu : ∀ c ∈ cleanedMac rawm.toList, isUpperAscii c = false :=
        cleanedMac_no_upper _
      refine ⟨rfl, ?_, ?_, ?_, ?_⟩
      · show (formatMacPairs (cleanedMac rawm.toList)).length = 17
        rw [formatMacPairs_length, hl12]
      · intro he
        have hd := congrArg String.data he
        have hd2 : formatMacPairs (cleanedMac rawm.toList) = ([] : List Char) := hd
        have hlen := formatMacPairs_length (cleanedMac rawm.toList)
        rw [hd2, hl12] at hlen
        simp at hlen
      · intro i h
        exact formatMacPairs_get_colon (cleanedMac rawm.toList) hnc i h
      · intro c hc
        rcases formatMacPairs_mem (cleanedMac rawm.toList) c hc with h | h
        · rw [h]; decide
        · exact hnu c h

/-- Witness for C4 at a concrete correlated SNMP batch: a twelve-hex-digit
    MAC yields the seventeen-character colon-separated identifier. -/
theorem parser_identifier_shape_amended_w :
    ({ identifier := "98:c7:a4:5e:30:b8", ponInterface := "N/A",
       vendorName := "hsgq_epon",
       details := [("onu_index", "1"), ("mac_address", "0x98C7A45E30B8")] } :
      FetchedOnu).identifier.data.length = 17 := by
  have h := (parser_identifier_shape_amended).2
    [("mac_address", [("1", "0x98C7A45E30B8")])]
    { identifier := "98:c7:a4:5e:30:b8", ponInterface := "N/A",
      vendorName := "hsgq_epon",
      details := [("onu_index", "1"), ("mac_address", "0x98C7A45E30B8")] }
    (by decide)
  exact h.2.1

/-! ## SNMP index extraction (C5)

The HSGQ correlators (hsgq/snmp_service.py and hsgq/epon_snmp_service.py)
extract the ONU instance index from a returned OID string with
re.search of the two-branch pattern: a dot followed by trailing digits, or
digits followed by a trailing .0.0 / .65535.65535 sentinel. re.search
scans positions left to right and tries the first branch before the
second; within the second branch the greedy digit run backtracks, which —
because the remainder must equal a fixed literal of length 4 or 12 —
leaves at most one viable split per literal, tried longest first. The
Hioso correlator (hioso/snmp_service.py) instead joins the last two
dot-separated components. -/

/-- First branch of the search pattern at one position: a literal dot
    followed by a non-empty all-digit remainder reaching the end. -/
def alt1 : List Char → Option (List Char)
  | [] => none
  | c :: rest =>
    if c = '.' ∧ rest ≠ [] ∧ rest.all Char.isDigit then some rest else none

/-- Second branch at one position: a non-empty digit run followed by the
    literal .0.0 or .65535.65535 reaching the end; the longer digit run
    (the four-character literal) is tried first, mirroring greedy
    backtracking. -/
def alt2 (l : List Char) : Option (List Char) :=
  if 5 ≤ l.length ∧ l.drop (l.length - 4) = ".0.0".toList ∧
      (l.take (l.length - 4)).all Char.isDigit then
    some (l.take (l.length - 4))
  else if 13 ≤ l.length ∧ l.drop (l.length - 12) = ".65535.65535".toList ∧
      (l.take (l.length - 12)).all Char.isDigit then
    some (l.take (l.length - 12))
  else none

/-- re.search of the index pattern: scan positions left to right, at each
    position try the first branch then the second, and return the group of
    the first match. -/
def searchOnuIndex : List Char → Option (List Char)
  | [] => none
  | c :: rest =>
    match alt1 (c :: rest) with
    | some g => some g
    | none =>
      match alt2 (c :: rest) with
      | some g => some g
      | none => searchOnuIndex rest

/-- Python `oid.split('.')` (no merging of adjacent separators). -/
def splitDots : List Char → List (List Char)
  | [] => [[]]
  | c :: r =>
    if c = '.' then [] :: splitDots r
    else ((c :: (splitDots r).headD []) :: (splitDots r).tail)

/-- The Hioso index derivation: when the OID has more than two components,
    join the last two with a dot (hioso/snmp_service.py `_snmp_walk`). -/
def hioso_onu_index (oid : List Char) : Option (List Char) :=
  if 2 < (splitDots oid).length then
    match (splitDots oid).reverse with
    | a :: b :: _ => some (b ++ '.' :: a)
    | _ => none
  else none

/-- One walk result fold step of the HSGQ services: store the value under
    the extracted index, overwriting a previous value of the same index;
    OIDs without an extractable index record nothing. -/
def hsgq_walk_collect (binds : List (List Char × String)) :
    List (String × String) :=
  binds.foldl
    (fun acc ov =>
      match searchOnuIndex ov.1 with
      | some idx => assocSet (String.mk idx) ov.2 acc
      | none => acc)
    []

lemma digit_ne_dot {c : Char} (h : c.isDigit = true) : c ≠ '.' := by
  intro he
  subst he
  simp [Char.isDigit] at h

lemma all_digit_no_dot {l : List Char} (h : l.all Char.isDigit = true) :
    '.' ∉ l := by
  intro hm
  have := List.all_eq_true.mp h _ hm
  exact digit_ne_dot this rfl

lemma count_zero_of_digits {l : List Char} (h : l.all Char.isDigit = true) :
    l.count '.' = 0 :=
  List.count_eq_zero.mpr (all_digit_no_dot h)

lemma alt2_structure {l g : List Char} (h : alt2 l = some g) :
    g.all Char.isDigit = true ∧
    (l = g ++ ".0.0".toList ∨ l = g ++ ".65535.65535".toList) := by
  unfold alt2 at h
  by_cases h1 : 5 ≤ l.length ∧ l.drop (l.length - 4) = ".0.0".toList ∧
      (l.take (l.length - 4)).all Char.isDigit
  · rw [if_pos h1] at h
    obtain ⟨ha, hb, hc⟩ := h1
    have hg : g = l.take (l.length - 4) := (Option.some.injEq _ _ ▸ h).symm
    subst hg
    have hsp : l = l.take (l.length - 4) ++ l.drop (l.length - 4) :=
      (List.take_append_drop _ _).symm
    rw [hb] at hsp
    exact ⟨hc, Or.inl hsp⟩
  · rw [if_neg h1] at h
    by_cases h2 : 13 ≤ l.length ∧ l.drop (l.length - 12) = ".65535.65535".toList ∧
        (l.take (l.length - 12)).all Char.isDigit
    · rw [if_pos h2] at h
      obtain ⟨ha, hb, hc⟩ := h2
      have hg : g = l.take (l.length - 12) := (Option.some.injEq _ _ ▸ h).symm
      subst hg
      have hsp : l = l.take (l.length - 12) ++ l.drop (l.length - 12) :=
        (List.take_append_drop _ _).symm
      rw [hb] at hsp
      exact ⟨hc, Or.inr hsp⟩
    · rw [if_neg h2] at h
      simp at h

lemma alt2_count {l g : List Char} (h : alt2 l = some g) : l.count '.' = 2 := by
  obtain ⟨hd, hs | hs⟩ := alt2_structure h <;>
  · subst hs
    rw [List.count_append, count_zero_of_digits hd]
    rfl

lemma alt1_none_of_ne_dot {c : Char} (rest : List Char) (h : c ≠ '.') :
    alt1 (c :: rest) = none := by
  simp only [alt1]
  rw [if_neg]
  rintro ⟨hc, _, _⟩
  exact h hc

lemma alt2_none_of_count {l : List Char} (h : l.count '.' ≠ 2) :
    alt2 l = none := by
  cases ha : alt2 l with
  | none => rfl
  | some g => exact absurd (alt2_count ha) h

lemma searchOnuIndex_cons_none {c : Char} {rest : List Char}
    (h1 : alt1 (c :: rest) = none) (h2 : alt2 (c :: rest) = none) :
    searchOnuIndex (c :: rest) = searchOnuIndex rest := by
  conv_lhs => rw [searchOnuIndex]
  rw [h1, h2]

lemma count_drop_zero_of_digits {l : List Char} (j : Nat)
    (h : l.all Char.isDigit = true) : (l.drop j).count '.' = 0 :=
  List.count_eq_zero.mpr (fun hm => all_digit_no_dot h (List.drop_subset j l hm))

lemma search_skip_digits : ∀ (w y : List Char), w.all Char.isDigit = true →
    (∀ j, j < w.length → alt2 (w.drop j ++ y) = none) →
    searchOnuIndex (w ++ y) = searchOnuIndex y := by
  intro w
  induction w with
  | nil => intro y _ _; rfl
  | cons c w' ih =>
    intro y hall h2
    have hcd : c.isDigit = true := by simp [List.all_cons] at hall; exact hall.1
    have hall' : w'.all Char.isDigit = true := by
      simp [List.all_cons] at hall; exact List.all_eq_true.mpr hall.2
    rw [List.cons_append]
    have e1 : alt1 (c :: (w' ++ y)) = none := alt1_none_of_ne_dot _ (digit_ne_dot hcd)
    have e2 : alt2 (c :: (w' ++ y)) = none := by
      have := h2 0 (by simp)
      simpa using this
    rw [searchOnuIndex_cons_none e1 e2]
    exact ih y hall' (fun j hj => by
      have := h2 (j + 1) (by simp; omega)
      simpa using this)

lemma alt2_none_head_dot (y : List Char) : alt2 ('.' :: y) = none := by
  have hA : ¬(5 ≤ ('.' :: y).length ∧
      ('.' :: y).drop (('.' :: y).length - 4) = ".0.0".toList ∧
      (('.' :: y).take (('.' :: y).length - 4)).all Char.isDigit) := by
    rintro ⟨h5, _, hall⟩
    obtain ⟨k, hk⟩ : ∃ k, ('.' :: y).length - 4 = k + 1 := by
      refine ⟨('.' :: y).length - 5, ?_⟩
      simp at h5 ⊢
      omega
    rw [hk, List.take_succ_cons] at hall
    simp [List.all_cons] at hall
  have hB : ¬(13 ≤ ('.' :: y).length ∧
      ('.' :: y).drop (('.' :: y).length - 12) = ".65535.65535".toList ∧
      (('.' :: y).take (('.' :: y).length - 12)).all Char.isDigit) := by
    rintro ⟨h13, _, hall⟩
    obtain ⟨k, hk⟩ : ∃ k, ('.' :: y).length - 12 = k + 1 := by
      refine ⟨('.' :: y).length - 13, ?_⟩
      simp at h13 ⊢
      omega
    rw [hk, List.take_succ_cons] at hall
    simp [List.all_cons] at hall
  unfold alt2
  rw [if_neg hA, if_neg hB]

lemma search_none_of_digits : ∀ (l : List Char), l.all Char.isDigit = true →
    searchOnuIndex l = none := by
  intro l
  induction l with
  | nil => intro _; rfl
  | cons c rest ih =>
    intro hall
    have hcd : c.isDigit = true := by simp [List.all_cons] at hall; exact hall.1
    have hall' : rest.all Char.isDigit = true := by
      simp [List.all_cons] at hall; exact List.all_eq_true.mpr hall.2
    rw [searchOnuIndex_cons_none (alt1_none_of_ne_dot _ (digit_ne_dot hcd))
      (alt2_none_of_count (by
        rw [List.count_cons, count_zero_of_digits hall']
        simp [digit_ne_dot hcd]))]
    exact ih hall'

lemma search_skip_comp (c y : List Char) (hall : c.all Char.isDigit = true)
    (hy : 2 ≤ y.count '.') :
    searchOnuIndex (c ++ '.' :: y) = searchOnuIndex y := by
  have h1 : searchOnuIndex (c ++ '.' :: y) = searchOnuIndex ('.' :: y) :=
    search_skip_digits c ('.' :: y) hall (fun j hj => alt2_none_of_count (by
      rw [List.count_append, List.count_cons, count_drop_zero_of_digits j hall]
      simp
      omega))
  rw [h1]
  have e1 : alt1 ('.' :: y) = none := by
    simp only [alt1]
    rw [if_neg]
    rintro ⟨_, _, hall2⟩
    have := count_zero_of_digits hall2
    omega
  exact searchOnuIndex_cons_none e1 (alt2_none_head_dot y)

lemma search_dot_digits (c1 : List Char) (h1 : c1 ≠ [])
    (h2 : c1.all Char.isDigit = true) :
    searchOnuIndex ('.' :: c1) = some c1 := by
  conv_lhs => rw [searchOnuIndex]
  have e1 : alt1 ('.' :: c1) = some c1 := by
    simp only [alt1]
    rw [if_pos ⟨trivial, h1, h2⟩]
  rw [e1]

lemma firstDotSplit : ∀ (w t a b : List Char), '.' ∉ w → '.' ∉ t →
    w ++ '.' :: a = t ++ '.' :: b → w = t ∧ a = b := by
  intro w
  induction w with
  | nil =>
    intro t a b _ ht heq
    cases t with
    | nil => simpa using heq
    | cons x t' =>
      simp only [List.nil_append, List.cons_append, List.cons.injEq] at heq
      have hx : x = '.' := heq.1.symm
      subst hx
      exact absurd (List.mem_cons_self _ _) ht
  | cons c w' ih =>
    intro t a b hw ht heq
    cases t with
    | nil =>
      simp only [List.cons_append, List.nil_append, List.cons.injEq] at heq
      have hc : c = '.' := heq.1
      subst hc
      exact absurd (List.mem_cons_self _ _) hw
    | cons x t' =>
      simp only [List.cons_append, List.cons.injEq] at heq
      obtain ⟨hcx, heq2⟩ := heq
      obtain ⟨hw2, hab⟩ := ih t' a b (fun hm => hw (List.mem_cons_of_mem _ hm))
        (fun hm => ht (List.mem_cons_of_mem _ hm)) heq2
      subst hcx
      exact ⟨by rw [hw2], hab⟩

lemma alt2_none_mid (w c2 c1 : List Char) (hw : w.all Char.isDigit = true)
    (h2d : c2.all Char.isDigit = true) (_h1d : c1.all Char.isDigit = true)
    (hnot : ¬((c2 = ['0'] ∧ c1 = ['0']) ∨
      (c2 = "65535".toList ∧ c1 = "65535".toList))) :
    alt2 (w ++ '.' :: (c2 ++ '.' :: c1)) = none := by
  cases ha : alt2 (w ++ '.' :: (c2 ++ '.' :: c1)) with
  | none => rfl
  | some g =>
    exfalso
    obtain ⟨hgd, hs | hs⟩ := alt2_structure ha
    · have hsplit := firstDotSplit w g (c2 ++ '.' :: c1) ("0.0".toList)
        (all_digit_no_dot hw) (all_digit_no_dot hgd) hs
      have hsplit2 := firstDotSplit c2 ['0'] c1 ['0']
        (all_digit_no_dot h2d) (by decide) hsplit.2
      exact hnot (Or.inl hsplit2)
    · have hsplit := firstDotSplit w g (c2 ++ '.' :: c1) ("65535.65535".toList)
        (all_digit_no_dot hw) (all_digit_no_dot hgd) hs
      have hsplit2 := firstDotSplit c2 "65535".toList c1 "65535".toList
        (all_digit_no_dot h2d) (by decide) hsplit.2
      exact hnot (Or.inr hsplit2)

/-- Dot join of OID components (inverse of splitDots on dot-free
    components), used to state the extraction characterization over
    well-formed OIDs. -/
def joinDots : List (List Char) → List Char
  | [] => []
  | [c] => c
  | c :: rest => c ++ '.' :: joinDots rest

lemma joinDots_cons (c : List Char) (rest : List (List Char)) (h : rest ≠ []) :
    joinDots (c :: rest) = c ++ '.' :: joinDots rest := by
  match rest with
  | r :: rs => rfl

lemma joinDots_count : ∀ (comps : List (List Char)), comps ≠ [] →
    (∀ c ∈ comps, c.all Char.isDigit = true) →
    (joinDots comps).count '.' = comps.length - 1 := by
  intro comps
  induction comps with
  | nil => intro h; exact absurd rfl h
  | cons c rest ih =>
    intro _ hall
    cases hre : rest with
    | nil =>
      subst hre
      show (joinDots [c]).count '.' = 0
      exact count_zero_of_digits (hall c (by simp))
    | cons r rs =>
      have hrne : rest ≠ [] := by rw [hre]; simp
      rw [← hre, joinDots_cons c rest hrne, List.count_append, List.count_cons]
      rw [count_zero_of_digits (hall c (by simp))]
      rw [ih hrne (fun x hx => hall x (by simp [hx]))]
      rw [hre]
      simp

lemma all_drop_of_all {l : List Char} (j : Nat) (h : l.all Char.isDigit = true) :
    (l.drop j).all Char.isDigit = true :=
  List.all_eq_true.mpr (fun x hx =>
    List.all_eq_true.mp h x (List.drop_subset j l hx))

lemma searchOnuIndex_cons_alt2 {c : Char} {rest g : List Char}
    (h1 : alt1 (c :: rest) = none) (h2 : alt2 (c :: rest) = some g) :
    searchOnuIndex (c :: rest) = some g := by
  conv_lhs => rw [searchOnuIndex]
  rw [h1, h2]

lemma alt2_append_sentinel0 (c3 : List Char) (h3 : c3 ≠ [])
    (h3d : c3.all Char.isDigit = true) :
    alt2 (c3 ++ ".0.0".toList) = some c3 := by
  have hlen : (c3 ++ ".0.0".toList).length = c3.length + 4 := by simp
  have hl4 : (c3 ++ ".0.0".toList).length - 4 = c3.length := by rw [hlen]; omega
  unfold alt2
  rw [hl4, List.drop_left, List.take_left]
  rw [if_pos ⟨by rw [hlen]; have := List.length_pos.mpr h3; omega, rfl, h3d⟩]

lemma alt2_append_sentinel65535 (c3 : List Char) (h3 : c3 ≠ [])
    (h3d : c3.all Char.isDigit = true) :
    alt2 (c3 ++ ".65535.65535".toList) = some c3 := by
  have hlen : (c3 ++ ".65535.65535".toList).length = c3.length + 12 := by simp
  have hl12 : (c3 ++ ".65535.65535".toList).length - 12 = c3.length := by
    rw [hlen]; omega
  have hA : ¬(5 ≤ (c3 ++ ".65535.65535".toList).length ∧
      (c3 ++ ".65535.65535".toList).drop
        ((c3 ++ ".65535.65535".toList).length - 4) = ".0.0".toList ∧
      ((c3 ++ ".65535.65535".toList).take
        ((c3 ++ ".65535.65535".toList).length - 4)).all Char.isDigit) := by
    rintro ⟨_, hdrop, _⟩
    rw [show (c3 ++ ".65535.65535".toList).length - 4 = c3.length + 8 from by
      rw [hlen]; omega] at hdrop
    rw [List.drop_append 8] at hdrop
    exact absurd hdrop (by decide)
  unfold alt2
  rw [if_neg hA, hl12, List.drop_left, List.take_left]
  rw [if_pos ⟨by rw [hlen]; have := List.length_pos.mpr h3; omega, rfl, h3d⟩]

lemma search_tail3_sentinel (c3 S : List Char) (h3 : c3 ≠ [])
    (h3d : c3.all Char.isDigit = true) (hS : alt2 (c3 ++ S) = some c3) :
    searchOnuIndex (c3 ++ S) = some c3 := by
  match c3, h3 with
  | d :: c3', _ =>
    have hd : d.isDigit = true := by
      simp [List.all_cons] at h3d; exact h3d.1
    rw [List.cons_append]
    exact searchOnuIndex_cons_alt2 (alt1_none_of_ne_dot _ (digit_ne_dot hd))
      (List.cons_append d c3' S ▸ hS)

lemma search_tail3_plain (c3 c2 c1 : List Char)
    (h3d : c3.all Char.isDigit = true)
    (h2d : c2.all Char.isDigit = true) (h1 : c1 ≠ [])
    (h1d : c1.all Char.isDigit = true)
    (hnot : ¬((c2 = ['0'] ∧ c1 = ['0']) ∨
      (c2 = "65535".toList ∧ c1 = "65535".toList))) :
    searchOnuIndex (c3 ++ '.' :: (c2 ++ '.' :: c1)) = some c1 := by
  have hskip : searchOnuIndex (c3 ++ '.' :: (c2 ++ '.' :: c1)) =
      searchOnuIndex ('.' :: (c2 ++ '.' :: c1)) :=
    search_skip_digits c3 _ h3d (fun j hj =>
      alt2_none_mid (c3.drop j) c2 c1 (all_drop_of_all j h3d) h2d h1d hnot)
  rw [hskip]
  have e1 : alt1 ('.' :: (c2 ++ '.' :: c1)) = none := by
    simp only [alt1]
    rw [if_neg]
    rintro ⟨_, _, hall⟩
    exact (all_digit_no_dot hall) (by simp)
  rw [searchOnuIndex_cons_none e1 (alt2_none_head_dot _)]
  have hskip2 : searchOnuIndex (c2 ++ '.' :: c1) = searchOnuIndex ('.' :: c1) :=
    search_skip_digits c2 _ h2d (fun j hj => alt2_none_of_count (by
      rw [List.count_append, List.count_cons, count_drop_zero_of_digits j h2d,
        count_zero_of_digits h1d]
      simp))
  rw [hskip2]
  exact search_dot_digits c1 h1 h1d

lemma search_pair (c2 c1 : List Char) (h2d : c2.all Char.isDigit = true)
    (h1 : c1 ≠ []) (h1d : c1.all Char.isDigit = true) :
    searchOnuIndex (c2 ++ '.' :: c1) = some c1 := by
  have hskip : searchOnuIndex (c2 ++ '.' :: c1) = searchOnuIndex ('.' :: c1) :=
    search_skip_digits c2 _ h2d (fun j hj => alt2_none_of_count (by
      rw [List.count_append, List.count_cons, count_drop_zero_of_digits j h2d,
        count_zero_of_digits h1d]
      simp))
  rw [hskip]
  exact search_dot_digits c1 h1 h1d

lemma search_triple (front : List (List Char)) :
    ∀ (c3 c2 c1 : List Char),
    (∀ c ∈ front, c ≠ [] ∧ c.all Char.isDigit = true) →
    c3 ≠ [] → c3.all Char.isDigit = true →
    c2 ≠ [] → c2.all Char.isDigit = true →
    c1 ≠ [] → c1.all Char.isDigit = true →
    searchOnuIndex (joinDots (front ++ [c3, c2, c1])) =
      if (c2 = ['0'] ∧ c1 = ['0']) ∨
          (c2 = "65535".toList ∧ c1 = "65535".toList) then some c3
      else some c1 := by
  induction front with
  | nil =>
    intro c3 c2 c1 _ h3 h3d h2 h2d h1 h1d
    have hjoin : joinDots ([] ++ [c3, c2, c1]) =
        c3 ++ '.' :: (c2 ++ '.' :: c1) := rfl
    rw [hjoin]
    by_cases hs : (c2 = ['0'] ∧ c1 = ['0']) ∨
        (c2 = "65535".toList ∧ c1 = "65535".toList)
    · rw [if_pos hs]
      rcases hs with ⟨rfl, rfl⟩ | ⟨rfl, rfl⟩
      · have he : c3 ++ '.' :: (['0'] ++ '.' :: ['0']) =
            c3 ++ ".0.0".toList := rfl
        rw [he]
        exact search_tail3_sentinel c3 _ h3 h3d (alt2_append_sentinel0 c3 h3 h3d)
      · have he : c3 ++ '.' :: ("65535".toList ++ '.' :: "65535".toList) =
            c3 ++ ".65535.65535".toList := rfl
        rw [he]
        exact search_tail3_sentinel c3 _ h3 h3d
          (alt2_append_sentinel65535 c3 h3 h3d)
    · rw [if_neg hs]
      exact search_tail3_plain c3 c2 c1 h3d h2d h1 h1d hs
  | cons f front' ih =>
    intro c3 c2 c1 hfront h3 h3d h2 h2d h1 h1d
    have hne : front' ++ [c3, c2, c1] ≠ [] := by simp
    rw [List.cons_append, joinDots_cons f _ hne]
    have hf := hfront f (by simp)
    have hcnt : 2 ≤ (joinDots (front' ++ [c3, c2, c1])).count '.' := by
      rw [joinDots_count _ hne (by
        intro c hc
        rcases List.mem_append.mp hc with hm | hm
        · exact (hfront c (by simp [hm])).2
        · simp at hm
          rcases hm with rfl | rfl | rfl
          · exact h3d
          · exact h2d
          · exact h1d)]
      simp
    rw [search_skip_comp f _ hf.2 hcnt]
    exact ih c3 c2 c1 (fun c hc => hfront c (by simp [hc])) h3 h3d h2 h2d h1 h1d

lemma splitDots_nodot : ∀ (c : List Char), '.' ∉ c → splitDots c = [c] := by
  intro c
  induction c with
  | nil => intro _; rfl
  | cons x r ih =>
    intro hm
    have hx : x ≠ '.' := fun he => hm (he ▸ List.mem_cons_self _ _)
    have hr := ih (fun hmm => hm (List.mem_cons_of_mem _ hmm))
    simp only [splitDots, hx, if_false, hr]
    rfl

lemma splitDots_dotfree_append : ∀ (c y : List Char), '.' ∉ c →
    splitDots (c ++ '.' :: y) = c :: splitDots y := by
  intro c
  induction c with
  | nil =>
    intro y _
    simp [splitDots]
  | cons x c' ih =>
    intro y hm
    have hx : x ≠ '.' := fun he => hm (he ▸ List.mem_cons_self _ _)
    have hr := ih y (fun hmm => hm (List.mem_cons_of_mem _ hmm))
    simp only [List.cons_append, splitDots, hx, if_false, List.append_eq]
    rw [hr]
    rfl

lemma splitDots_join : ∀ (comps : List (List Char)), comps ≠ [] →
    (∀ c ∈ comps, '.' ∉ c) → splitDots (joinDots comps) = comps := by
  intro comps
  induction comps with
  | nil => intro h; exact absurd rfl h
  | cons c rest ih =>
    intro _ hall
    cases hre : rest with
    | nil =>
      subst hre
      exact splitDots_nodot c (hall c (by simp))
    | cons r rs =>
      have hrne : rest ≠ [] := by rw [hre]; simp
      rw [← hre, joinDots_cons c rest hrne,
        splitDots_dotfree_append c _ (hall c (by simp)),
        ih hrne (fun x hx => hall x (by simp [hx]))]

lemma hioso_index_single (a : List Char) (h : '.' ∉ a) :
    hioso_onu_index (joinDots [a]) = none := by
  have hj : joinDots [a] = a := rfl
  rw [hj]
  unfold hioso_onu_index
  rw [splitDots_nodot a h]
  simp

lemma hioso_index_multi (front : List (List Char)) (b a : List Char)
    (hall : ∀ c ∈ front ++ [b, a], '.' ∉ c) :
    hioso_onu_index (joinDots (front ++ [b, a])) =
      if front = [] then none else some (b ++ '.' :: a) := by
  unfold hioso_onu_index
  rw [splitDots_join (front ++ [b, a]) (by simp) hall]
  have hrev : (front ++ [b, a]).reverse = a :: b :: front.reverse := by
    simp
  rw [hrev]
  cases front with
  | nil => simp
  | cons f fr =>
    rw [if_pos (by simp), if_neg (by simp)]

/-- Claim C5 counterexample: for the OID 1.3.6.2.7 the Hioso correlator
    derives the index 2.7 (the last two components joined), not the last
    numeric component 7 that the claim requires of every correlator. -/
theorem hioso_index_not_last_component_cex :
    hioso_onu_index "1.3.6.2.7".toList = some "2.7".toList ∧
    hioso_onu_index "1.3.6.2.7".toList ≠ some "7".toList := by
  exact ⟨by decide, by decide⟩

/-- Claim C5 (amended): the HSGQ correlators extract the instance index by
    the search pattern: on a well-formed numeric OID of two components the
    last component; of three or more components, the third-from-last when
    the OID ends in the .0.0 or .65535.65535 sentinel and the last
    component otherwise; a single numeric component yields no index. The
    Hioso correlator instead joins the last two components whenever the OID
    has more than two, and extracts nothing otherwise. Each walk records an
    extracted value under index, field and value, overwriting the previous
    value of the same index, and records nothing when no index is
    extractable. -/
theorem snmp_index_extraction_amended :
    (∀ (c2 c1 : List Char),
      c2.all Char.isDigit = true → c1 ≠ [] → c1.all Char.isDigit = true →
      searchOnuIndex (joinDots [c2, c1]) = some c1) ∧
    (∀ (front : List (List Char)) (c3 c2 c1 : List Char),
      (∀ c ∈ front, c ≠ [] ∧ c.all Char.isDigit = true) →
      c3 ≠ [] → c3.all Char.isDigit = true →
      c2 ≠ [] → c2.all Char.isDigit = true →
      c1 ≠ [] → c1.all Char.isDigit = true →
      searchOnuIndex (joinDots (front ++ [c3, c2, c1])) =
        if (c2 = ['0'] ∧ c1 = ['0']) ∨
            (c2 = "65535".toList ∧ c1 = "65535".toList) then some c3
        else some c1) ∧
    (∀ (c : List Char), c.all Char.isDigit = true →
      searchOnuIndex (joinDots [c]) = none) ∧
    (∀ (a : List Char), '.' ∉ a → hioso_onu_index (joinDots [a]) = none) ∧
    (∀ (front : List (List Char)) (b a : List Char),
      (∀ c ∈ front ++ [b, a], '.' ∉ c) →
      hioso_onu_index (joinDots (front ++ [b, a])) =
        if front = [] then none else some (b ++ '.' :: a)) ∧
    (∀ (oid : List Char) (v : String) (idx : List Char),
      searchOnuIndex oid = some idx →
      hsgq_walk_collect [(oid, v)] = [(String.mk idx, v)]) ∧
    (∀ (oid : List Char) (v : String),
      searchOnuIndex oid = none → hsgq_walk_collect [(oid, v)] = []) := by
  refine ⟨fun c2 c1 h2d h1 h1d => search_pair c2 c1 h2d h1 h1d,
    search_triple, fun c hd => search_none_of_digits c hd,
    hioso_index_single, hioso_index_multi, ?_, ?_⟩
  · intro oid v idx h
    simp [hsgq_walk_collect, h, assocSet]
  · intro oid v h
    simp [hsgq_walk_collect, h]

/-- Witness for C5 at a concrete two-component OID. -/
theorem snmp_index_extraction_amended_w :
    searchOnuIndex (joinDots [['4', '2'], ['7']]) = some ['7'] :=
  (snmp_index_extraction_amended).1 ['4', '2'] ['7'] (by decide) (by decide)
    (by decide)


/-! ## Pagination handling in the read loops (C6):
    vendors/hioso/telnet_service.py get_onus read loop and
    vendors/hsgq/epon_ssh_service.py wait_for_prompt -/

/-- Python substring containment: startsWith check at each position. -/
def startsWithL : List Char → List Char → Bool
  | [], _ => true
  | _ :: _, [] => false
  | p :: ps, c :: cs => p == c && startsWithL ps cs

def hasSub (pat : List Char) : List Char → Bool
  | [] => startsWithL pat []
  | c :: rest => startsWithL pat (c :: rest) || hasSub pat rest

lemma startsWithL_iff : ∀ (p l : List Char),
    startsWithL p l = true ↔ ∃ r, l = p ++ r := by
  intro p
  induction p with
  | nil => intro l; simp [startsWithL]
  | cons x ps ih =>
    intro l
    cases l with
    | nil =>
      simp [startsWithL]
    | cons c cs =>
      simp only [startsWithL, Bool.and_eq_true, beq_iff_eq, ih cs,
        List.cons_append, List.cons.injEq]
      constructor
      · rintro ⟨h1, r, h2⟩
        exact ⟨r, h1.symm, h2⟩
      · rintro ⟨r, h1, h2⟩
        exact ⟨h1.symm, r, h2⟩

lemma hasSub_iff : ∀ (pat l : List Char),
    hasSub pat l = true ↔ ∃ u v, l = u ++ pat ++ v := by
  intro pat l
  induction l with
  | nil =>
    simp only [hasSub, startsWithL_iff]
    constructor
    · rintro ⟨r, h⟩
      exact ⟨[], r, by simpa using h⟩
    · rintro ⟨u, v, h⟩
      have h0 := List.append_eq_nil.mp h.symm
      have h1 := List.append_eq_nil.mp h0.1
      exact ⟨v, by rw [h1.2]; simp [h0.2]⟩
  | cons c cs ih =>
    simp only [hasSub, Bool.or_eq_true, startsWithL_iff, ih]
    constructor
    · rintro (⟨r, h⟩ | ⟨u, v, h⟩)
      · exact ⟨[], r, by simpa using h⟩
      · exact ⟨c :: u, v, by simp [h]⟩
    · rintro ⟨u, v, h⟩
      cases u with
      | nil => exact Or.inl ⟨v, by simpa using h⟩
      | cons x u' =>
        right
        simp only [List.cons_append, List.cons.injEq] at h
        exact ⟨u', v, h.2⟩

lemma dropLit_iff : ∀ (p l r : List Char),
    dropLit p l = some r ↔ l = p ++ r := by
  intro p
  induction p with
  | nil =>
    intro l r
    simp only [dropLit, Option.some.injEq, List.nil_append]
  | cons x ps ih =>
    intro l r
    cases l with
    | nil =>
      rw [show dropLit (x :: ps) ([] : List Char) = none from rfl]
      simp
    | cons c cs =>
      simp only [dropLit, List.cons_append, List.cons.injEq]
      by_cases hc : c = x
      · rw [if_pos hc, ih cs r]
        constructor
        · intro h; exact ⟨hc, h⟩
        · intro h; exact h.2
      · rw [if_neg hc]
        constructor
        · intro h; exact absurd h (by simp)
        · rintro ⟨h1, _⟩; exact absurd h1 hc

lemma hasSub_mono {pat x u v : List Char} (h : hasSub pat x = true) :
    hasSub pat (u ++ x ++ v) = true := by
  obtain ⟨a, b, rfl⟩ := (hasSub_iff pat x).mp h
  exact (hasSub_iff _ _).mpr ⟨u ++ a, b ++ v, by simp⟩

lemma hasSub_false_mono {pat x u v : List Char}
    (h : hasSub pat (u ++ x ++ v) = false) : hasSub pat x = false := by
  cases hx : hasSub pat x with
  | false => rfl
  | true => rw [hasSub_mono hx] at h; exact h.symm ▸ rfl

lemma subScanAux_nil (m : List Char → Option (List Char)) (repl : List Char) :
    ∀ f, subScanAux m repl f [] = [] := by
  intro f
  cases f with
  | zero => rfl
  | succ f => rfl

lemma dropLast_append_single (B : List Char) (pat : List Char) (h : pat ≠ []) :
    (B ++ pat).dropLast = B ++ pat.dropLast := by
  match pat, h with
  | p :: ps, _ =>
    rw [List.dropLast_append_cons]

lemma subScan_lit_tail (pat : List Char) (hne : pat ≠ []) :
    ∀ (f : Nat) (B : List Char), B.length + pat.length ≤ f →
    hasSub pat ((B ++ pat).dropLast) = false →
    subScanAux (fun x => if pat.isEmpty then none else dropLit pat x) [] f
      (B ++ pat) = B := by
  intro f
  induction f with
  | zero =>
    intro B hlen _
    have : pat.length = 0 := by omega
    exact absurd (List.length_eq_zero.mp this) hne
  | succ f ih =>
    intro B hlen hnot
    cases B with
    | nil =>
      match pat, hne with
      | p :: ps, _ =>
        show subScanAux _ [] (f + 1) (p :: ps) = []
        have hm : (fun x => if (p :: ps).isEmpty then none
            else dropLit (p :: ps) x) (p :: ps) = some [] := by
          simp only [List.isEmpty_cons, Bool.false_eq_true, if_false]
          exact (dropLit_iff _ _ _).mpr (by simp)
        simp only [subScanAux, hm]
        simp [subScanAux_nil]
    | cons x B' =>
      rw [List.cons_append]
      have hmx : (fun t => if pat.isEmpty then none else dropLit pat t)
          (x :: (B' ++ pat)) = none := by
        have hemp : pat.isEmpty = false := by
          cases pat with
          | nil => exact absurd rfl hne
          | cons p ps => rfl
        simp only [hemp, Bool.false_eq_true, if_false]
        cases hdl : dropLit pat (x :: (B' ++ pat)) with
        | none => rfl
        | some r =>
          exfalso
          have heq := (dropLit_iff _ _ _).mp hdl
          have hrne : r ≠ [] := by
            intro hr
            subst hr
            have := congrArg List.length heq
            simp at this
            omega
          have hdrop : ((x :: B') ++ pat).dropLast = pat ++ r.dropLast := by
            rw [List.cons_append, heq, dropLast_append_single pat r hrne]
          rw [hdrop] at hnot
          have : hasSub pat (pat ++ r.dropLast) = true := by
            refine (hasSub_iff _ _).mpr ⟨[], r.dropLast, by simp⟩
          rw [this] at hnot
          exact absurd hnot (by simp)
      show subScanAux _ [] (f + 1) (x :: (B' ++ pat)) = x :: B'
      simp only [subScanAux, hmx]
      have hnot' : hasSub pat ((B' ++ pat).dropLast) = false := by
        rw [dropLast_append_single B' pat hne]
        rw [dropLast_append_single (x :: B') pat hne] at hnot
        exact hasSub_false_mono (u := [x]) (v := [])
          (by simpa using hnot)
      rw [ih B' (by simp at hlen ⊢; omega) hnot']

lemma pyReplace_tail_occurrence (pat buf : List Char) (c : Char)
    (hne : pat ≠ []) (hbuf : hasSub pat buf = false)
    (hocc : hasSub pat (buf ++ [c]) = true) :
    ∃ B, buf ++ [c] = B ++ pat ∧ pyReplace pat [] (buf ++ [c]) = B ∧
      hasSub pat B = false := by
  obtain ⟨u, v, he⟩ := (hasSub_iff _ _).mp hocc
  have hv : v = [] := by
    by_contra hvne
    have hd : (buf ++ [c]).dropLast = (u ++ pat) ++ v.dropLast := by
      rw [he, dropLast_append_single (u ++ pat) v hvne]
    have hdl : (buf ++ [c]).dropLast = buf := by simp
    rw [hdl] at hd
    have hsub : hasSub pat buf = true := by
      rw [hd]
      have h0 : hasSub pat pat = true :=
        (hasSub_iff _ _).mpr ⟨[], [], by simp⟩
      have := hasSub_mono (u := u) (v := v.dropLast) h0
      simpa using this
    rw [hsub] at hbuf
    exact absurd hbuf (by simp)
  subst hv
  have heq : buf ++ [c] = u ++ pat := by simpa using he
  have hb : buf = u ++ pat.dropLast := by
    have h1 : (buf ++ [c]).dropLast = buf := by simp
    rw [heq, dropLast_append_single u pat hne] at h1
    exact h1.symm
  refine ⟨u, heq, ?_, ?_⟩
  · show subScanAux _ [] (buf ++ [c]).length (buf ++ [c]) = u
    rw [heq]
    refine subScan_lit_tail pat hne _ u (by simp) ?_
    rw [dropLast_append_single u pat hne, ← hb]
    exact hbuf
  · refine hasSub_false_mono (u := []) (x := u) (v := pat.dropLast) ?_
    rw [hb] at hbuf
    simpa using hbuf

def moreShort : List Char := "--More--".toList
def eponContinueKey : List Char := ['\r', '\n']

def eponWait (prompts : List (List Char)) :
    List Char → List (List Char) → List Char → List Char × List (List Char)
  | buf, sent, [] => (buf, sent)
  | buf, sent, c :: rest =>
    if hasSub moreShort (buf ++ [c]) then
      (if prompts.any (fun p => hasSub p (pyReplace moreShort [] (buf ++ [c])))
        then (pyReplace moreShort [] (buf ++ [c]), sent ++ [eponContinueKey])
      else eponWait prompts (pyReplace moreShort [] (buf ++ [c]))
        (sent ++ [eponContinueKey]) rest)
    else
      (if prompts.any (fun p => hasSub p (buf ++ [c])) then (buf ++ [c], sent)
       else eponWait prompts (buf ++ [c]) sent rest)

lemma eponWait_no_marker (prompts : List (List Char)) :
    ∀ (chars : List Char) (buf : List Char) (sent : List (List Char)),
    hasSub moreShort buf = false →
    hasSub moreShort (eponWait prompts buf sent chars).1 = false := by
  intro chars
  induction chars with
  | nil => intro buf sent hbuf; exact hbuf
  | cons c rest ih =>
    intro buf sent hbuf
    show hasSub moreShort (eponWait prompts buf sent (c :: rest)).1 = false
    by_cases hm : hasSub moreShort (buf ++ [c]) = true
    · obtain ⟨B, hBeq, hBrepl, hBfree⟩ :=
        pyReplace_tail_occurrence moreShort buf c (by decide) hbuf hm
      simp only [eponWait, hm, if_true]
      rw [hBrepl]
      by_cases hp : prompts.any (fun p => hasSub p B) = true
      · rw [if_pos hp]
        exact hBfree
      · rw [if_neg hp]
        exact ih B (sent ++ [eponContinueKey]) hBfree
    · have hm' : hasSub moreShort (buf ++ [c]) = false := by
        cases h : hasSub moreShort (buf ++ [c]) with
        | false => rfl
        | true => exact absurd h hm
      simp only [eponWait, hm', Bool.false_eq_true, if_false]
      by_cases hp : prompts.any (fun p => hasSub p (buf ++ [c])) = true
      · rw [if_pos hp]
        exact hm'
      · rw [if_neg hp]
        exact ih (buf ++ [c]) sent hm'

lemma eponWait_keys (prompts : List (List Char)) :
    ∀ (chars : List Char) (buf : List Char) (sent : List (List Char)),
    (∀ k ∈ sent, k = eponContinueKey) →
    ∀ k ∈ (eponWait prompts buf sent chars).2, k = eponContinueKey := by
  intro chars
  induction chars with
  | nil => intro buf sent hs; exact hs
  | cons c rest ih =>
    intro buf sent hs
    have hs' : ∀ k ∈ sent ++ [eponContinueKey], k = eponContinueKey := by
      intro k hk
      rcases List.mem_append.mp hk with h | h
      · exact hs k h
      · simpa using h
    show ∀ k ∈ (eponWait prompts buf sent (c :: rest)).2, k = eponContinueKey
    by_cases hm : hasSub moreShort (buf ++ [c]) = true
    · simp only [eponWait, hm, if_true]
      by_cases hp : prompts.any
          (fun p => hasSub p (pyReplace moreShort [] (buf ++ [c]))) = true
      · rw [if_pos hp]; exact hs'
      · rw [if_neg hp]; exact ih _ _ hs'
    · have hm' : hasSub moreShort (buf ++ [c]) = false := by
        cases h : hasSub moreShort (buf ++ [c]) with
        | false => rfl
        | true => exact absurd h hm
      simp only [eponWait, hm', Bool.false_eq_true, if_false]
      by_cases hp : prompts.any (fun p => hasSub p (buf ++ [c])) = true
      · rw [if_pos hp]; exact hs
      · rw [if_neg hp]; exact ih _ _ hs

def moreMarker : List Char := "---- More ----".toList
def pressMarker : List Char := "Press Enter Or Space To Continue".toList
def hiosoContinueKey : List Char := [' ']

def matchWordTail (r : List Char) : Option (List Char) :=
  match r with
  | ' ' :: r2 =>
    match takeRun1 isDashC r2 with
    | none => none
    | some (d, rem) => if d.length < 2 then none else some rem
  | _ => none

def matchLoopBanner (l : List Char) : Option (List Char) :=
  match takeRun1 isDashC l with
  | none => none
  | some (d1, r1) =>
    if d1.length < 2 then none else
    match r1 with
    | ' ' :: r2 =>
      (match dropLit "More".toList r2 with
       | some r3 => matchWordTail r3
       | none =>
         match dropLit pressMarker r2 with
         | some r3 => matchWordTail r3
         | none => none)
    | _ => none

def subLoopBanner (l : List Char) : List Char := pySub matchLoopBanner [] l

def hiosoReadLoop (prompt : List Char) :
    List Char → List (List Char) → List (List Char) →
    List Char × List (List Char)
  | acc, sent, [] => (acc, sent)
  | acc, sent, ch :: rest =>
    if ch = [] then (acc, sent)
    else if hasSub moreMarker ch || hasSub pressMarker ch then
      (if hasSub prompt (subLoopBanner (acc ++ ch)) then
        (subLoopBanner (acc ++ ch), sent ++ [hiosoContinueKey])
      else hiosoReadLoop prompt (subLoopBanner (acc ++ ch))
        (sent ++ [hiosoContinueKey]) rest)
    else
      (if hasSub prompt (acc ++ ch) then (acc ++ ch, sent)
       else hiosoReadLoop prompt (acc ++ ch) sent rest)

lemma matchLoopBanner_none_head {x : Char} (rest : List Char) (hx : x ≠ '-') :
    matchLoopBanner (x :: rest) = none := by
  have ht : takeRun1 isDashC (x :: rest) = none := by
    simp [takeRun1, List.takeWhile, isDashC, hx]
  simp [matchLoopBanner, ht]

lemma subScanAux_banner_dashfree :
    ∀ (f : Nat) (l : List Char), '-' ∉ l →
    subScanAux matchLoopBanner [] f l = l := by
  intro f
  induction f with
  | zero => intro l _; rfl
  | succ f ih =>
    intro l hl
    cases l with
    | nil => rfl
    | cons x rest =>
      have hx : x ≠ '-' := fun he => hl (he ▸ List.mem_cons_self _ _)
      have hrest : '-' ∉ rest := fun hm => hl (List.mem_cons_of_mem _ hm)
      simp only [subScanAux, matchLoopBanner_none_head rest hx]
      rw [ih rest hrest]

lemma subLoopBanner_dashfree (l : List Char) (h : '-' ∉ l) :
    subLoopBanner l = l :=
  subScanAux_banner_dashfree l.length l h

lemma matchLoopBanner_marker : matchLoopBanner moreMarker = some [] := by
  decide

lemma subScanAux_banner_tail :
    ∀ (f : Nat) (B : List Char), B.length + moreMarker.length ≤ f →
    '-' ∉ B →
    subScanAux matchLoopBanner [] f (B ++ moreMarker) = B := by
  intro f
  induction f with
  | zero =>
    intro B hlen _
    exfalso
    have : moreMarker.length = 14 := by decide
    omega
  | succ f ih =>
    intro B hlen hB
    cases B with
    | nil =>
      show subScanAux matchLoopBanner [] (f + 1) moreMarker = []
      have hm : moreMarker = '-' :: "--- More ----".toList := by decide
      rw [hm]
      simp only [subScanAux]
      rw [show matchLoopBanner ('-' :: "--- More ----".toList) = some []
        from matchLoopBanner_marker]
      simp [subScanAux_nil]
    | cons x B' =>
      have hx : x ≠ '-' := fun he => hB (he ▸ List.mem_cons_self _ _)
      have hB' : '-' ∉ B' := fun hm => hB (List.mem_cons_of_mem _ hm)
      rw [List.cons_append]
      show subScanAux matchLoopBanner [] (f + 1) (x :: (B' ++ moreMarker)) =
        x :: B'
      simp only [subScanAux, matchLoopBanner_none_head _ hx]
      rw [ih B' (by simp at hlen ⊢; omega) hB']

lemma hasSub_dash_false {pat l : List Char} (hd : '-' ∈ pat) (hl : '-' ∉ l) :
    hasSub pat l = false := by
  cases h : hasSub pat l with
  | false => rfl
  | true =>
    exfalso
    obtain ⟨u, v, rfl⟩ := (hasSub_iff _ _).mp h
    exact hl (by simp [hd])

lemma flatten_decomp {p : List Char} :
    ∀ {pages : List (List Char)}, p ∈ pages →
    ∃ u v, pages.flatten = u ++ p ++ v := by
  intro pages
  induction pages with
  | nil => intro h; cases h
  | cons q qs ih =>
    intro h
    rcases List.mem_cons.mp h with rfl | h2
    · exact ⟨[], qs.flatten, by simp⟩
    · obtain ⟨u, v, huv⟩ := ih h2
      exact ⟨q ++ u, v, by simp [huv]⟩

lemma hasSub_false_of_append_right {pat x rest : List Char}
    (h : hasSub pat (x ++ rest) = false) : hasSub pat x = false :=
  hasSub_false_mono (u := []) (v := rest) (by simpa using h)

lemma hioso_loop_pages (prompt : List Char) :
    ∀ (pages : List (List Char)) (B : List Char) (sent : List (List Char)),
    (∀ p ∈ pages, p ≠ []) →
    '-' ∉ B → (∀ p ∈ pages, '-' ∉ p) →
    (∀ p ∈ pages, hasSub pressMarker p = false) →
    hasSub prompt (B ++ pages.flatten) = false →
    hiosoReadLoop prompt B sent (List.intersperse moreMarker pages) =
      (B ++ pages.flatten,
       sent ++ List.replicate (pages.length - 1) hiosoContinueKey) := by
  intro pages
  induction pages with
  | nil => intro B sent _ _ _ _ _; simp [hiosoReadLoop, List.intersperse]
  | cons p ps ih =>
    cases ps with
    | nil =>
      intro B sent hne hB hdash hpress hprompt
      have hp0 : p ≠ [] := hne p (by simp)
      have hpd : '-' ∉ p := hdash p (by simp)
      have hflat : ([p] : List (List Char)).flatten = p := by simp
      rw [hflat] at hprompt
      have hmore : hasSub moreMarker p = false :=
        hasSub_dash_false (by decide) hpd
      have hpressp : hasSub pressMarker p = false := hpress p (by simp)
      show hiosoReadLoop prompt B sent [p] = _
      simp only [hiosoReadLoop, hp0, if_false, hmore, hpressp, Bool.or_self,
        Bool.false_eq_true, hprompt]
      simp [hflat]
    | cons p2 ps2 =>
      intro B sent hne hB hdash hpress hprompt
      have hp0 : p ≠ [] := hne p (by simp)
      have hpd : '-' ∉ p := hdash p (by simp)
      have hmore : hasSub moreMarker p = false :=
        hasSub_dash_false (by decide) hpd
      have hpressp : hasSub pressMarker p = false := hpress p (by simp)
      have hflat : ((p :: p2 :: ps2) : List (List Char)).flatten =
          p ++ (p2 :: ps2).flatten := by simp
      rw [hflat] at hprompt
      have hpr1 : hasSub prompt ((B ++ p) ++ (p2 :: ps2).flatten) = false := by
        rw [List.append_assoc]
        exact hprompt
      have hpr0 : hasSub prompt (B ++ p) = false :=
        hasSub_false_of_append_right hpr1
      have hstep : List.intersperse moreMarker (p :: p2 :: ps2) =
          p :: moreMarker :: List.intersperse moreMarker (p2 :: ps2) := rfl
      rw [hstep]
      show hiosoReadLoop prompt B sent
        (p :: moreMarker :: List.intersperse moreMarker (p2 :: ps2)) = _
      simp only [hiosoReadLoop, hp0, if_false, hmore, hpressp, Bool.or_self,
        Bool.false_eq_true, hpr0]
      have hmne : moreMarker ≠ [] := by decide
      have hdet : (hasSub moreMarker moreMarker ||
          hasSub pressMarker moreMarker) = true := by decide
      simp only [hmne, if_false, hdet, if_true]
      have hsub : subLoopBanner ((B ++ p) ++ moreMarker) = B ++ p := by
        show subScanAux matchLoopBanner []
          (((B ++ p) ++ moreMarker).length) ((B ++ p) ++ moreMarker) = B ++ p
        refine subScanAux_banner_tail _ (B ++ p) (by simp; omega) ?_
        intro hm
        rcases List.mem_append.mp hm with h | h
        · exact hB h
        · exact hpd h
      rw [hsub]
      simp only [hpr0, Bool.false_eq_true, if_false]
      rw [ih (B ++ p) (sent ++ [hiosoContinueKey])
        (fun q hq => hne q (by simp [hq]))
        (fun hm => (by
          rcases List.mem_append.mp hm with h | h
          · exact hB h
          · exact hpd h))
        (fun q hq => hdash q (by simp [hq]))
        (fun q hq => hpress q (by simp [hq]))
        hpr1]
      rw [hflat]
      simp [List.append_assoc, List.replicate_succ]

/-- Claim C6 counterexample: the HSGQ EPON read loop answers a recognized
    pagination marker by sending Enter (CRLF), not the space keystroke the
    claim requires of every loop. -/
theorem epon_continue_key_cex :
    eponWait [] [] [] "--More--x".toList = ("x".toList, [eponContinueKey]) ∧
    eponContinueKey ≠ hiosoContinueKey := by
  exact ⟨by decide, by decide⟩

/-- Claim C6 (amended): in both read loops every recognized pagination
    marker is stripped from the accumulated buffer and answered by a
    continuation keystroke — a space in the Hioso Telnet loop but Enter in
    the HSGQ EPON SSH loop — and reading resumes: the EPON buffer never
    retains a marker and the loop sends nothing but Enter; the Hioso loop
    fed N pages separated by whole-chunk markers accumulates exactly the
    concatenated pages, sending one space per marker, so the parsed record
    set (and hence its size) is the same as for the unpaginated transcript. -/
theorem pagination_handling_amended :
    (∀ (prompts : List (List Char)) (chars : List Char),
      hasSub moreShort (eponWait prompts [] [] chars).1 = false) ∧
    (∀ (prompts : List (List Char)) (chars : List Char),
      ∀ k ∈ (eponWait prompts [] [] chars).2, k = eponContinueKey) ∧
    (∀ (prompt : List Char) (pages : List (List Char)),
      pages ≠ [] → (∀ p ∈ pages, p ≠ []) → (∀ p ∈ pages, '-' ∉ p) →
      hasSub pressMarker pages.flatten = false →
      hasSub prompt pages.flatten = false →
      (hiosoReadLoop prompt [] [] (List.intersperse moreMarker pages) =
        (pages.flatten,
         List.replicate (pages.length - 1) hiosoContinueKey)) ∧
      hioso_parse_onus
        (hiosoReadLoop prompt [] [] (List.intersperse moreMarker pages)).1 =
      hioso_parse_onus (hiosoReadLoop prompt [] [] [pages.flatten]).1) := by
  refine ⟨fun prompts chars => eponWait_no_marker prompts chars [] [] rfl,
    fun prompts chars => eponWait_keys prompts chars [] []
      (by intro k hk; cases hk), ?_⟩
  intro prompt pages hpne hne hdash hpressf hpromptf
  have hpress : ∀ p ∈ pages, hasSub pressMarker p = false := by
    intro p hp
    obtain ⟨u, v, huv⟩ := flatten_decomp hp
    exact hasSub_false_mono (u := u) (v := v) (by rw [← huv]; exact hpressf)
  have hmulti := hioso_loop_pages prompt pages [] [] hne (by simp) hdash
    hpress (by simpa using hpromptf)
  have hflatne : pages.flatten ≠ [] := by
    match pages, hpne with
    | p :: ps, _ =>
      have hp := hne p (by simp)
      intro hflat
      rw [List.flatten_cons] at hflat
      exact hp (List.append_eq_nil.mp hflat).1
  have hflatdash : '-' ∉ pages.flatten := by
    intro hm
    obtain ⟨l, hl, hml⟩ := List.mem_flatten.mp hm
    exact hdash l hl hml
  have hsingle := hioso_loop_pages prompt [pages.flatten] [] []
    (by intro q hq; simp at hq; subst hq; exact hflatne)
    (by simp) (by intro q hq; simp at hq; subst hq; exact hflatdash)
    (by intro q hq; simp at hq; subst hq; exact hpressf)
    (by simpa using hpromptf)
  rw [show List.intersperse moreMarker [pages.flatten] = [pages.flatten]
    from rfl] at hsingle
  refine ⟨by simpa using hmulti, ?_⟩
  rw [hmulti, hsingle]
  simp

/-- Witness for C6: a two-page Hioso transcript separated by one marker
    chunk yields the concatenated pages and one space keystroke. -/
theorem pagination_handling_amended_w :
    hiosoReadLoop "EPON".toList [] []
      (List.intersperse moreMarker ["ab".toList, "cd".toList]) =
      ("abcd".toList, [hiosoContinueKey]) := by
  have h := (pagination_handling_amended).2.2 "EPON".toList
    ["ab".toList, "cd".toList] (by decide) (by decide) (by decide)
    (by decide) (by decide)
  rw [h.1]
  decide


/-! ## Hioso get_onus port loop (C7, C10)

vendors/hioso/telnet_service.py `get_onus` iterates `for i in range(1, 3)`
over the PON submenus `pon 1/i`. Entering a submenu waits for the prompt
`EPON(epon-pon-1/i)#`; on timeout the port is skipped: `exit` is sent and
the parent prompt `EPON(epon)#` is awaited for 2 seconds, a timeout there
re-raising (aborting the whole session into the outer except). Otherwise
`show onu all` is read through the pagination loop, parsed, and the
records are appended; leaving the submenu again waits for `EPON(epon)#`,
a timeout there raising as well. The environment of one port is its four
observable effects. -/

/-- Observable behavior of the device at one PON port submenu: whether
    entering the submenu times out, whether the 2-second wait for the
    parent prompt after a skip times out, the chunks the read loop sees,
    and whether the post-port wait for the parent prompt times out. -/
structure PortBehavior where
  enterTimeout : Bool
  returnAfterSkipTimeout : Bool
  chunks : List (List Char)
  exitReturnTimeout : Bool

/-- The hard-coded loop bound `range(1, 3)` of get_onus. -/
def portRange : List Nat := List.range' 1 2

/-- The submenu prompt awaited for port i. -/
def portPrompt (i : Nat) : List Char :=
  ("EPON(epon-pon-1/" ++ toString i ++ ")#").toList

/-- Raw transcript accumulated by the read loop at port i. -/
def portOutput (b : Nat → PortBehavior) (i : Nat) : List Char :=
  (hiosoReadLoop (portPrompt i) [] [] (b i).chunks).1

/-- One iteration of the port loop: skip on submenu-entry timeout (abort
    if the return to the parent menu also times out), otherwise read,
    parse and append, aborting if the post-port parent prompt times out.
    Both aborts re-raise the TimeoutError of `_read_until("EPON(epon)#")`. -/
def hioso_port_step (b : Nat → PortBehavior) (i : Nat)
    (acc : List FetchedOnu) : Except String (List FetchedOnu) :=
  if (b i).enterTimeout then
    (if (b i).returnAfterSkipTimeout then
      Except.error "Timeout waiting for prompt: EPON(epon)#"
    else Except.ok acc)
  else if (b i).exitReturnTimeout then
    Except.error "Timeout waiting for prompt: EPON(epon)#"
  else Except.ok (acc ++ hioso_parse_onus (portOutput b i))

/-- The port loop over a list of ports. -/
def hioso_ports_fold (b : Nat → PortBehavior) :
    List Nat → List FetchedOnu → Except String (List FetchedOnu)
  | [], acc => Except.ok acc
  | i :: rest, acc =>
    (hioso_port_step b i acc).bind (fun a2 => hioso_ports_fold b rest a2)

/-- get_onus up to the success payload: the record list accumulated over
    `range(1, 3)`, or the first raised error (surfaced by the outer
    except as an error payload). -/
def hioso_get_onus (b : Nat → PortBehavior) :
    Except String (List FetchedOnu) :=
  hioso_ports_fold b portRange []

/-- Port prefix of an interface locator such as `1/1:13` (the part
    before the colon). -/
def ponPortOf (s : String) : String :=
  String.mk (s.toList.takeWhile (fun c => c ≠ ':'))

/-- C7: a timeout entering one PON port submenu skips that port and
    continues with the next, returning the other port's records; only a
    failure to return to the parent menu after the skip aborts the whole
    session. -/
theorem hioso_port_skip_policy (b : Nat → PortBehavior)
    (h1 : (b 1).enterTimeout = true) :
    ((b 1).returnAfterSkipTimeout = true →
      hioso_get_onus b =
        Except.error "Timeout waiting for prompt: EPON(epon)#") ∧
    ((b 1).returnAfterSkipTimeout = false → (b 2).enterTimeout = false →
      (b 2).exitReturnTimeout = false →
      hioso_get_onus b =
        Except.ok (hioso_parse_onus (portOutput b 2))) ∧
    ((b 1).returnAfterSkipTimeout = false → (b 2).enterTimeout = true →
      (b 2).returnAfterSkipTimeout = false →
      hioso_get_onus b = Except.ok []) := by
  have hpr : portRange = [1, 2] := rfl
  refine ⟨fun h2 => ?_, fun h2 h3 h4 => ?_, fun h2 h3 h4 => ?_⟩ <;>
    simp only [hioso_get_onus, hpr] <;>
    simp [hioso_ports_fold, hioso_port_step, h1, h2, Except.bind, *]

/-- Witness for C7: port 1 times out on submenu entry and is skipped, the
    return to the parent menu succeeds, and the run completes with port
    2's (empty) records. -/
def hiosoSkipBehaviorW : Nat → PortBehavior :=
  fun i => if i = 1 then ⟨true, false, [], false⟩
    else ⟨false, false, [], false⟩

theorem hioso_port_skip_policy_w :
    hioso_get_onus hiosoSkipBehaviorW = Except.ok [] := by
  have h := (hioso_port_skip_policy hiosoSkipBehaviorW rfl).2.1 rfl rfl rfl
  rw [show hioso_parse_onus (portOutput hiosoSkipBehaviorW 2) = [] from rfl]
    at h
  exact h

/-! ## Disconnect and transport release (C8)

vendors/hioso/telnet_service.py `disconnect` (lines 66-70) runs only when
the writer exists and is not already closing; it then awaits
`_write("exit\n")` and calls `writer.close()` with no try/finally between
the two, so a raising write skips the close. `get_onus` awaits
`disconnect()` in its `finally` clause (lines 201-202), on the return
path and the except path alike. -/

/-- State transition of `disconnect()`: from (writer present, writer
    already closing, the `exit` write raises) to (transport closed,
    exception propagated out of disconnect). -/
def disconnectModel (writerSome writerClosing writeRaises : Bool) :
    Bool × Bool :=
  if writerSome && !writerClosing then
    (if writeRaises then (false, true) else (true, false))
  else (false, false)

/-- One `get_onus` call with its `finally` clause: the payload is paired
    with whether `disconnect()` was invoked, and with disconnect's
    outcome. Both the return branch and the except branch reach the
    `finally`. -/
def hioso_job (b : Nat → PortBehavior) (ws wc wr : Bool) :
    Except String (List FetchedOnu) × Bool × (Bool × Bool) :=
  match hioso_get_onus b with
  | Except.ok r => (Except.ok r, true, disconnectModel ws wc wr)
  | Except.error e => (Except.error e, true, disconnectModel ws wc wr)

/-- C8 counterexample: with a live writer, a raising `exit` write makes
    `disconnect()` propagate the exception without ever reaching
    `writer.close()`: the transport is NOT released, contradicting
    "always releases the transport ... including an error raised while
    sending the logout command itself". -/
theorem disconnect_close_skipped_cex :
    disconnectModel true false true = (false, true) ∧
    (disconnectModel true false true).1 = false := ⟨rfl, rfl⟩

/-- C8 (amended): `disconnect()` is invoked on every exit path of
    `get_onus` via the `finally` clause; with a live writer and a
    successful `exit` write it closes the transport without raising, and
    with no writer (or one already closing) it does nothing; but a
    raising `exit` write skips `writer.close()`, leaving the transport
    open and propagating the exception. -/
theorem disconnect_release_amended (b : Nat → PortBehavior)
    (ws wc wr : Bool) :
    (hioso_job b ws wc wr).2.1 = true ∧
    (ws = true → wc = false → wr = false →
      disconnectModel ws wc wr = (true, false)) ∧
    (ws = false ∨ wc = true → disconnectModel ws wc wr = (false, false)) ∧
    (ws = true → wc = false → wr = true →
      disconnectModel ws wc wr = (false, true)) := by
  refine ⟨?_, ?_, ?_, ?_⟩
  · cases h : hioso_get_onus b <;> simp [hioso_job, h]
  · rintro rfl rfl rfl; rfl
  · rintro (rfl | rfl) <;> simp [disconnectModel]
  · rintro rfl rfl rfl; rfl

/-- Witness for C8: on a run with no ports timing out, disconnect is
    invoked and, the writer being live and the write clean, the transport
    is closed without an exception. -/
theorem disconnect_release_amended_w :
    (hioso_job (fun _ => ⟨false, false, [], false⟩) true false false).2.1 =
      true ∧
    disconnectModel true false false = (true, false) := by
  have h := disconnect_release_amended (fun _ => ⟨false, false, [], false⟩)
    true false false
  exact ⟨h.1, h.2.1 rfl rfl rfl⟩

/-! ## OID catalog loading and the SNMP task gate (C9)

tasks.py run_snmp_sync (lines 88-91) queries the OID catalog for
(vendor_id, olt_type) and returns an error payload when it is empty and
the model is not `epon`; only vendors/hsgq/epon_snmp_service.py
`_load_oids` (lines 24-51) has a hard-coded fallback, used when its
catalog query returns nothing or raises. -/

/-- Hard-coded fallback table of HsgqEponSnmpService.get_fallback_oids. -/
def get_fallback_oids : List (String × String) :=
  [("name", "1.3.6.1.4.1.50224.3.3.2.1.2"),
   ("tx_power", "1.3.6.1.4.1.50224.3.3.3.1.4"),
   ("rx_power", "1.3.6.1.4.1.50224.3.3.3.1.5"),
   ("status", "1.3.6.1.4.1.50224.3.3.2.1.8"),
   ("distance", "1.3.6.1.4.1.50224.3.3.2.1.15"),
   ("mac_address", "1.3.6.1.4.1.50224.3.3.2.1.7")]

/-- Dict comprehension keying OID records (fungsi, oid) by fungsi. -/
def oidsDictOf (records : List (String × String)) :
    List (String × String) :=
  records.foldl (fun d kv => assocSet kv.1 kv.2 d) []

/-- HsgqEponSnmpService._load_oids: a raised catalog query or an empty
    record list falls back to the hard-coded table; otherwise the records
    are keyed by fungsi. -/
def load_oids (loadRaised : Bool) (records : List (String × String)) :
    List (String × String) :=
  if loadRaised then get_fallback_oids
  else if records.isEmpty then get_fallback_oids
  else oidsDictOf records

/-- The OID gate of run_snmp_sync: an empty catalog for a non-epon model
    yields an error payload before any adapter runs; otherwise the sync
    proceeds (returns none). -/
def snmp_oids_gate (vendorName oltType : String)
    (dbOids : List (String × String)) : Option String :=
  if dbOids.isEmpty && !(oltType == "epon") then
    some ("SNMP OIDs not found for vendor: " ++ vendorName ++
      " and model: " ++ oltType)
  else none

/-- C9 counterexample: a device whose (vendor, model) = (hioso, gpon)
    catalog is empty makes run_snmp_sync return an error payload: no
    fallback applies outside the HSGQ EPON adapter, contradicting "for
    every device ... the SNMP sync proceeds rather than failing with an
    error". -/
theorem snmp_oids_gate_nonepon_cex :
    snmp_oids_gate "hioso" "gpon" [] =
      some "SNMP OIDs not found for vendor: hioso and model: gpon" := rfl

/-- C9 (amended): only the HSGQ EPON path has a fallback. _load_oids
    returns the hard-coded six-entry table when the catalog query raises
    or returns no records, and the keyed records otherwise; the task gate
    lets an empty catalog through only for the epon model and lets every
    non-empty catalog through, while a non-epon model with an empty
    catalog fails with an error payload (see the counterexample). -/
theorem oid_fallback_amended :
    load_oids false [] = get_fallback_oids ∧
    (∀ records, load_oids true records = get_fallback_oids) ∧
    (∀ r rs, load_oids false (r :: rs) = oidsDictOf (r :: rs)) ∧
    get_fallback_oids.length = 6 ∧
    (∀ v, snmp_oids_gate v "epon" [] = none) ∧
    (∀ v t o os, snmp_oids_gate v t (o :: os) = none) := by
  refine ⟨rfl, fun records => rfl, fun r rs => rfl, rfl, fun v => ?_,
    fun v t o os => rfl⟩
  simp [snmp_oids_gate]

/-! ## Hard-coded two-port bound of the Hioso fetch (C10) -/

lemma hioso_port_step_ok (b : Nat → PortBehavior) (i : Nat)
    (acc acc2 : List FetchedOnu)
    (hs : hioso_port_step b i acc = Except.ok acc2) :
    acc2 = acc ∨ acc2 = acc ++ hioso_parse_onus (portOutput b i) := by
  cases he : (b i).enterTimeout
  · cases hx : (b i).exitReturnTimeout
    · simp [hioso_port_step, he, hx] at hs
      exact Or.inr hs.symm
    · simp [hioso_port_step, he, hx] at hs
  · cases hrt : (b i).returnAfterSkipTimeout
    · simp [hioso_port_step, he, hrt] at hs
      exact Or.inl hs.symm
    · simp [hioso_port_step, he, hrt] at hs

lemma hioso_ports_fold_mem (b : Nat → PortBehavior) :
    ∀ (ports : List Nat) (acc recs : List FetchedOnu),
      hioso_ports_fold b ports acc = Except.ok recs →
      ∀ r ∈ recs, r ∈ acc ∨
        ∃ i, i ∈ ports ∧ r ∈ hioso_parse_onus (portOutput b i) := by
  intro ports
  induction ports with
  | nil =>
    intro acc recs h r hr
    simp [hioso_ports_fold] at h
    subst h
    exact Or.inl hr
  | cons i rest ih =>
    intro acc recs h r hr
    simp only [hioso_ports_fold] at h
    cases hs : hioso_port_step b i acc with
    | error e => rw [hs] at h; simp [Except.bind] at h
    | ok acc2 =>
      rw [hs] at h
      simp only [Except.bind] at h
      rcases ih acc2 recs h r hr with hmem | ⟨j, hj, hjr⟩
      · rcases hioso_port_step_ok b i acc acc2 hs with h2 | h2
        · subst h2
          exact Or.inl hmem
        · subst h2
          rcases List.mem_append.mp hmem with ha | hp
          · exact Or.inl ha
          · exact Or.inr ⟨i, List.mem_cons_self i rest, hp⟩
      · exact Or.inr ⟨j, List.mem_cons_of_mem i hj, hjr⟩

/-- C10: the port loop bound is hard-coded to `range(1, 3)`, i.e. exactly
    the submenus 1/1 and 1/2: the result depends only on the device's
    behavior at ports 1 and 2, a fully successful run returns exactly the
    parses of those two submenus in order, and — provided each submenu
    lists locators of its own port, as the device's `show onu all` does —
    every returned record carries a locator on port 1/1 or 1/2. -/
theorem hioso_two_ports_only (b : Nat → PortBehavior) :
    portRange = [1, 2] ∧
    (∀ b2 : Nat → PortBehavior, b 1 = b2 1 → b 2 = b2 2 →
      hioso_get_onus b = hioso_get_onus b2) ∧
    ((b 1).enterTimeout = false → (b 1).exitReturnTimeout = false →
      (b 2).enterTimeout = false → (b 2).exitReturnTimeout = false →
      hioso_get_onus b =
        Except.ok (hioso_parse_onus (portOutput b 1) ++
          hioso_parse_onus (portOutput b 2))) ∧
    (∀ recs, hioso_get_onus b = Except.ok recs →
      (∀ i ∈ portRange, ∀ r ∈ hioso_parse_onus (portOutput b i),
        ponPortOf r.ponInterface = "1/" ++ toString i) →
      ∀ r ∈ recs,
        ponPortOf r.ponInterface = "1/1" ∨
          ponPortOf r.ponInterface = "1/2") := by
  refine ⟨rfl, ?_, ?_, ?_⟩
  · intro b2 e1 e2
    have s1 : hioso_port_step b 1 = hioso_port_step b2 1 := by
      funext acc
      simp only [hioso_port_step, portOutput, e1]
    have s2 : hioso_port_step b 2 = hioso_port_step b2 2 := by
      funext acc
      simp only [hioso_port_step, portOutput, e2]
    show hioso_ports_fold b portRange [] = hioso_ports_fold b2 portRange []
    rw [show portRange = [1, 2] from rfl]
    simp only [hioso_ports_fold]
    simp only [s1, s2]
  · intro h1 h2 h3 h4
    have hpr : portRange = [1, 2] := rfl
    simp only [hioso_get_onus, hpr]
    simp [hioso_ports_fold, hioso_port_step, h1, h2, h3, h4, Except.bind]
  · intro recs hrun hhon r hr
    rcases hioso_ports_fold_mem b portRange [] recs hrun r hr with
      h0 | ⟨i, hi, hri⟩
    · simp at h0
    · have hp := hhon i hi r hri
      have hi2 : i = 1 ∨ i = 2 := by
        have hm : i ∈ [1, 2] := by
          rw [show portRange = [1, 2] from rfl] at hi
          exact hi
        simpa using hm
      rcases hi2 with rfl | rfl
      · exact Or.inl (by rw [hp]; decide)
      · exact Or.inr (by rw [hp]; decide)

/-- Device behavior for the C10 witness: port 1 lists one ONU on locator
    1/1:3, port 2 is silent, nothing times out. -/
def hiosoBehaviorW : Nat → PortBehavior :=
  fun i => if i = 1 then
    ⟨false, false,
      ["1/1:3 98c7a4.5e30b8 Up 1 0x0 0x4853 1 Undef 100 22 hours".toList],
      false⟩
  else ⟨false, false, [], false⟩

theorem hioso_two_ports_only_w :
    hioso_get_onus hiosoBehaviorW =
      Except.ok (hioso_parse_onus (portOutput hiosoBehaviorW 1) ++
        hioso_parse_onus (portOutput hiosoBehaviorW 2)) ∧
    (hioso_parse_onus (portOutput hiosoBehaviorW 1)).map
      (fun r => ponPortOf r.ponInterface) = ["1/1"] := by
  refine ⟨(hioso_two_ports_only hiosoBehaviorW).2.2.1 rfl rfl rfl rfl, ?_⟩
  rfl

end OltManager
